import Mathlib

/-!
Verification development for a Rust implementation of the Zhang–Shasha
tree edit distance (src/src/lib.rs).

The embedding is shallow:

* `TreeNode` mirrors `struct TreeNode { label: String, children: Vec<Box<TreeNode>> }`.
* `TreeNode.post_order` mirrors `TreeNode::post_order`.
* `left_most_leaf_descendant`, `keyroots`, `Tree.new` mirror the `Tree`
  index-construction code.  The Rust `Tree::id` helper resolves a `&TreeNode`
  to its position in the post-order vector by pointer identity; since every
  node is exclusively owned (`Box`), pointer identity coincides with the
  occurrence of the node in the traversal, so `krNode`/`krChildren` compute
  each child's post-order index directly from traversal offsets.
* The dynamic programming tables (`nalgebra::DMatrix<u64>`) are lists of rows
  of `Nat`; `u64` addition is unchecked in release mode, so every addition is
  taken modulo `U = 2 ^ 64`.
* `fdTable` builds the `fd` matrix of `Tree::forest_distance` row by row in
  the same order as the Rust loops.  The Rust code interleaves the `td`
  writes with the construction of `fd`, but a cell `td[(i+l1-1, j+l2-1)]` is
  written only at loop iteration `(i, j)` (the index map is a bijection) and
  read only in the forest branch of the same iteration `(i, j)`, where the
  write does not happen; hence no `td` write of a key-root pair is ever read
  during the same pair, and performing all the pair's writes after the table
  is complete (`tdStep`) yields the same state.
* `exact*` versions of the same functions drop the `% U` reduction; they are
  the idealized (no-overflow) reading of the same algorithm and are used to
  exhibit the numeric overflow of claim C10.
-/

namespace ZhangShasha

/-- Ordered labeled tree node: a label and an ordered list of children. -/
inductive TreeNode where
  | node (label : String) (children : List TreeNode)

/-- Default node used only for out-of-range list reads (never hit on valid indices). -/
def defaultNode : TreeNode := .node "" []

instance : Inhabited TreeNode := ⟨defaultNode⟩

def TreeNode.label : TreeNode → String
  | .node l _ => l

def TreeNode.children : TreeNode → List TreeNode
  | .node _ cs => cs

mutual
/-- `TreeNode::post_order`: all children's post-orders left to right, then the node. -/
def TreeNode.post_order : TreeNode → List TreeNode
  | .node l cs => postOrderF cs ++ [.node l cs]
/-- Post-order traversal of a forest (the concatenation in the `for child` loop). -/
def postOrderF : List TreeNode → List TreeNode
  | [] => []
  | c :: cs => c.post_order ++ postOrderF cs
end

mutual
/-- Number of nodes of a tree (`post_order().len()` of the node). -/
def TreeNode.size : TreeNode → Nat
  | .node _ cs => sizeF cs + 1
/-- Number of nodes of a forest. -/
def sizeF : List TreeNode → Nat
  | [] => 0
  | c :: cs => c.size + sizeF cs
end

/-- `Tree::left_most_leaf_descendant`: entry `idx` is `idx - (post_order(node).len() - 1)`. -/
def left_most_leaf_descendant (po : List TreeNode) : List Nat :=
  po.enum.map (fun p => p.1 - (p.2.post_order.length - 1))

mutual
/-- Key-root indices contributed by the strict descendants of a node whose
    subtree starts at post-order offset `start` (the work-stack traversal of
    `Tree::keyroots`, with `Tree::id` resolved to traversal offsets). -/
def krNode : TreeNode → Nat → List Nat
  | .node _ cs, start => krChildren cs start true
/-- Walk a children list: every child with a preceding sibling (`idx > 0`)
    contributes its own post-order index, and all children are recursed into. -/
def krChildren : List TreeNode → Nat → Bool → List Nat
  | [], _, _ => []
  | c :: cs, start, isHead =>
    (if isHead then [] else [start + c.size - 1]) ++ krNode c start
      ++ krChildren cs (start + c.size) false
end

/-- `Tree::keyroots`: the root index plus all non-first-child indices, sorted ascending. -/
def keyroots (root : TreeNode) : List Nat :=
  List.insertionSort (· ≤ ·) ((root.size - 1) :: krNode root 0)

/-- The index structure built by `Tree::new`. -/
structure Tree where
  post_order : List TreeNode
  left_most_leaf_descendant : List Nat
  key_roots : List Nat

/-- `Tree::new`. -/
def Tree.new (root : TreeNode) : Tree :=
  { post_order := root.post_order
    left_most_leaf_descendant := ZhangShasha.left_most_leaf_descendant root.post_order
    key_roots := keyroots root }

/-- Read `left_most_leaf_descendant[k]` (out-of-range reads never occur on valid input). -/
def lldAt (t : Tree) (k : Nat) : Nat := t.left_most_leaf_descendant.getD k 0

/-- Read `post_order[k]`. -/
def nodeAt (t : Tree) (k : Nat) : TreeNode := t.post_order.getD k defaultNode

/-- Modulus of `u64` arithmetic. -/
def U : Nat := 2 ^ 64

/-- `Tree::label_cmp`. -/
def label_cmp (tn1 tn2 : TreeNode) (relabeling_cost : Nat) : Nat :=
  if tn1.label = tn2.label then 0 else relabeling_cost

/-- Matrix read `m[(i, j)]` on a row-list representation. -/
def getE (m : List (List Nat)) (i j : Nat) : Nat := (m.getD i []).getD j 0

/-- Matrix write `m[(i, j)] = v` on a row-list representation. -/
def setE (m : List (List Nat)) (i j v : Nat) : List (List Nat) :=
  m.set i ((m.getD i []).set j v)

/-- Body of the inner loop of `Tree::forest_distance` computing `fd[(i, j)]` for
    `i, j ≥ 1`: `rows` are the finished rows `0 .. i-1` of `fd`, `cur` is the
    part of row `i` built so far (entries `0 .. j-1`). -/
def fdEntry (t1 t2 : Tree) (ic dc rc x y : Nat) (td : List (List Nat))
    (rows : List (List Nat)) (cur : List Nat) (i j : Nat) : Nat :=
  let l1 := lldAt t1 x
  let l2 := lldAt t2 y
  let ni := i + l1 - 1
  let nj := j + l2 - 1
  let delTerm := (getE rows (i - 1) j + dc) % U
  let insTerm := (cur.getD (j - 1) 0 + ic) % U
  if lldAt t1 ni = l1 ∧ lldAt t2 nj = l2 then
    min (min delTerm insTerm)
      ((getE rows (i - 1) (j - 1) + label_cmp (nodeAt t1 ni) (nodeAt t2 nj) rc) % U)
  else
    min (min delTerm insTerm)
      ((getE rows (lldAt t1 ni - l1) (lldAt t2 nj - l2) + getE td ni nj) % U)

/-- Row `0` of `fd`: `fd[(0, j)] = fd[(0, j-1)] + insertion_cost`, `w` entries past `fd[(0,0)] = 0`. -/
def baseRow (ic w : Nat) : List Nat :=
  (List.range w).foldl (fun cur _ => cur ++ [((cur.getLast?.getD 0) + ic) % U]) [0]

/-- Row `i ≥ 1` of `fd`: entry `0` is `fd[(i-1, 0)] + deletion_cost`, then the inner loop. -/
def nextRow (t1 t2 : Tree) (ic dc rc x y : Nat) (td : List (List Nat))
    (rows : List (List Nat)) (w i : Nat) : List Nat :=
  (List.range w).foldl
    (fun cur j0 => cur ++ [fdEntry t1 t2 ic dc rc x y td rows cur i (j0 + 1)])
    [(getE rows (i - 1) 0 + dc) % U]

/-- First `h + 1` rows of the `fd` matrix of `Tree::forest_distance`. -/
def fdTableP (t1 t2 : Tree) (ic dc rc x y : Nat) (td : List (List Nat)) (h : Nat) :
    List (List Nat) :=
  let l2 := lldAt t2 y
  let w := y - l2 + 1
  (List.range h).foldl
    (fun rows i0 => rows ++ [nextRow t1 t2 ic dc rc x y td rows w (i0 + 1)])
    [baseRow ic w]

/-- The complete `fd` matrix of `Tree::forest_distance` for key roots `x`, `y`. -/
def fdTable (t1 t2 : Tree) (ic dc rc x y : Nat) (td : List (List Nat)) :
    List (List Nat) :=
  fdTableP t1 t2 ic dc rc x y td (x - lldAt t1 x + 1)

/-- First `w` iterations of the inner write loop of `Tree::forest_distance` for
    row `i`: every tree-branch cell `(i + l1 - 1, j + l2 - 1)` receives `fd[(i, j)]`. -/
def tdWriteRowP (t1 t2 : Tree) (tbl : List (List Nat)) (x y i : Nat)
    (td : List (List Nat)) (w : Nat) : List (List Nat) :=
  let l1 := lldAt t1 x
  let l2 := lldAt t2 y
  (List.range w).foldl (fun td2 j0 =>
    let j := j0 + 1
    if lldAt t1 (i + l1 - 1) = l1 ∧ lldAt t2 (j + l2 - 1) = l2 then
      setE td2 (i + l1 - 1) (j + l2 - 1) (getE tbl i j)
    else td2) td

/-- The complete inner write loop of `Tree::forest_distance` for row `i`. -/
def tdWriteRow (t1 t2 : Tree) (tbl : List (List Nat)) (x y i : Nat)
    (td : List (List Nat)) : List (List Nat) :=
  tdWriteRowP t1 t2 tbl x y i td (y - lldAt t2 y + 1)

/-- First `h` iterations of the outer write loop of `Tree::forest_distance`. -/
def tdStepP (t1 t2 : Tree) (tbl : List (List Nat)) (x y : Nat)
    (td : List (List Nat)) (h : Nat) : List (List Nat) :=
  (List.range h).foldl (fun td1 i0 => tdWriteRow t1 t2 tbl x y (i0 + 1) td1) td

/-- One call of `Tree::forest_distance`: build `fd` and record every
    tree-branch cell into `td` (see the header note on write deferral). -/
def tdStep (t1 t2 : Tree) (ic dc rc : Nat) (td : List (List Nat)) (x y : Nat) :
    List (List Nat) :=
  tdStepP t1 t2 (fdTable t1 t2 ic dc rc x y td) x y td (x - lldAt t1 x + 1)

/-- `DMatrix::zeros(r, c)`. -/
def zeros (r c : Nat) : List (List Nat) := List.replicate r (List.replicate c 0)

/-- Well-formed `r × c` matrix in the row-list representation. -/
def wfMat (m : List (List Nat)) (r c : Nat) : Prop :=
  m.length = r ∧ ∀ i, i < r → (m.getD i []).length = c

/-- Cell `(a, b)` of `td` is read by the forest branch of `forest_distance`
    during the key-root pair `(x, y)`: `(a, b)` lies in the pair's index
    window and the tree-branch condition fails there (the branch taken depends
    only on the `left_most_leaf_descendant` tables, not on computed values). -/
def forestRead (t1 t2 : Tree) (x y a b : Nat) : Prop :=
  lldAt t1 x ≤ a ∧ a ≤ x ∧ lldAt t2 y ≤ b ∧ b ≤ y ∧
    ¬(lldAt t1 a = lldAt t1 x ∧ lldAt t2 b = lldAt t2 y)

/-- Cell `(a, b)` of `td` is written by the tree branch of `forest_distance`
    during the key-root pair `(x, y)`. -/
def writesCell (t1 t2 : Tree) (x y a b : Nat) : Prop :=
  lldAt t1 x ≤ a ∧ a ≤ x ∧ lldAt t2 y ≤ b ∧ b ≤ y ∧
    lldAt t1 a = lldAt t1 x ∧ lldAt t2 b = lldAt t2 y

/-- Offset of the `m`-th child's post-order block inside a forest. -/
def offsetOf (cs : List TreeNode) (m : Nat) : Nat := sizeF (cs.take m)

def lldA (r : TreeNode) (k : Nat) : Nat :=
  k - ((r.post_order.getD k defaultNode).size - 1)

def lldF (cs : List TreeNode) (k : Nat) : Nat :=
  k - (((postOrderF cs).getD k defaultNode).size - 1)

/-- Follow the left-most-child chain down to a leaf (the spec's second
    formulation of the left-most leaf descendant). -/
def followChain : TreeNode → TreeNode
  | .node l [] => .node l []
  | .node _ (c :: _) => followChain c

/-! `chainLeafIdxT r start` lists, in post-order over the subtree of `r`
(whose post-order block occupies offsets `start, start + 1, …`), the
post-order index of the leaf reached from each node by repeatedly following
its first (left-most) child — the spec's second formulation of the left-most
leaf descendant, with node identity resolved to traversal offsets as in
`krChildren`.  A leaf's chain stops at the leaf itself, which occupies offset
`start` of its own (singleton) block; a node with a first child `c` takes the
chain index recorded for `c`'s root, the last entry of `c`'s block. -/
mutual
def chainLeafIdxT : TreeNode → Nat → List Nat
  | .node _ cs, start => chainLeafIdxF cs start ++ [chainRootIdx cs start]
def chainRootIdx : List TreeNode → Nat → Nat
  | [], start => start
  | c :: _, start => (chainLeafIdxT c start).getLast?.getD 0
def chainLeafIdxF : List TreeNode → Nat → List Nat
  | [], _ => []
  | c :: cs, start => chainLeafIdxT c start ++ chainLeafIdxF cs (start + c.size)
end

/-! `precededFlagsT r b` lists, in post-order, whether each node of `r` has a
preceding (earlier) sibling; the Bool argument is the flag of the (sub)tree's
own root, `true` for a child list's non-first entries. -/
mutual
def precededFlagsT : TreeNode → Bool → List Bool
  | .node _ cs, b => precededFlagsF cs true ++ [b]
def precededFlagsF : List TreeNode → Bool → List Bool
  | [], _ => []
  | c :: cs, isHead => precededFlagsT c (!isHead) ++ precededFlagsF cs false
end

instance forestReadDec (t1 t2 : Tree) (x y a b : Nat) :
    Decidable (forestRead t1 t2 x y a b) := by
  unfold forestRead
  exact inferInstance

instance writesCellDec (t1 t2 : Tree) (x y a b : Nat) :
    Decidable (writesCell t1 t2 x y a b) := by
  unfold writesCell
  exact inferInstance

/-- `Tree::weighted_tree_edit_distance`: run `forest_distance` over all
    key-root pairs (outer loop over `t1.key_roots`, inner over `t2.key_roots`,
    both in stored ascending order) and read `td[(n1-1, n2-1)]`. -/
def Tree.weighted_tree_edit_distance (t1 t2 : Tree)
    (insertion_cost deletion_cost relabeling_cost : Nat) : Nat :=
  let td := t1.key_roots.foldl (fun td x =>
    t2.key_roots.foldl (fun td y =>
      tdStep t1 t2 insertion_cost deletion_cost relabeling_cost td x y) td)
    (zeros t1.post_order.length t2.post_order.length)
  getE td (t1.post_order.length - 1) (t2.post_order.length - 1)

/-- `Tree::tree_edit_distance`: unit costs. -/
def Tree.tree_edit_distance (t1 t2 : Tree) : Nat :=
  t1.weighted_tree_edit_distance t2 1 1 1

/-! ### Idealized (non-wrapping) variant, for the overflow analysis (C10).
These definitions are identical to the ones above except that additions are
not reduced modulo `2 ^ 64`; they represent the mathematically intended
accumulation of costs. -/

/-- `fdEntry` without `u64` wrap-around. -/
def exactFdEntry (t1 t2 : Tree) (ic dc rc x y : Nat) (td : List (List Nat))
    (rows : List (List Nat)) (cur : List Nat) (i j : Nat) : Nat :=
  let l1 := lldAt t1 x
  let l2 := lldAt t2 y
  let ni := i + l1 - 1
  let nj := j + l2 - 1
  let delTerm := getE rows (i - 1) j + dc
  let insTerm := cur.getD (j - 1) 0 + ic
  if lldAt t1 ni = l1 ∧ lldAt t2 nj = l2 then
    min (min delTerm insTerm)
      (getE rows (i - 1) (j - 1) + label_cmp (nodeAt t1 ni) (nodeAt t2 nj) rc)
  else
    min (min delTerm insTerm)
      (getE rows (lldAt t1 ni - l1) (lldAt t2 nj - l2) + getE td ni nj)

/-- `baseRow` without `u64` wrap-around. -/
def exactBaseRow (ic w : Nat) : List Nat :=
  (List.range w).foldl (fun cur _ => cur ++ [(cur.getLast?.getD 0) + ic]) [0]

/-- `nextRow` without `u64` wrap-around. -/
def exactNextRow (t1 t2 : Tree) (ic dc rc x y : Nat) (td : List (List Nat))
    (rows : List (List Nat)) (w i : Nat) : List Nat :=
  (List.range w).foldl
    (fun cur j0 => cur ++ [exactFdEntry t1 t2 ic dc rc x y td rows cur i (j0 + 1)])
    [getE rows (i - 1) 0 + dc]

/-- `fdTable` without `u64` wrap-around. -/
def exactFdTable (t1 t2 : Tree) (ic dc rc x y : Nat) (td : List (List Nat)) :
    List (List Nat) :=
  let l1 := lldAt t1 x
  let l2 := lldAt t2 y
  let w := y - l2 + 1
  (List.range (x - l1 + 1)).foldl
    (fun rows i0 => rows ++ [exactNextRow t1 t2 ic dc rc x y td rows w (i0 + 1)])
    [exactBaseRow ic w]

/-- `tdStep` without `u64` wrap-around. -/
def exactTdStep (t1 t2 : Tree) (ic dc rc : Nat) (td : List (List Nat)) (x y : Nat) :
    List (List Nat) :=
  let l1 := lldAt t1 x
  let l2 := lldAt t2 y
  let tbl := exactFdTable t1 t2 ic dc rc x y td
  (List.range (x - l1 + 1)).foldl (fun td1 i0 =>
    (List.range (y - l2 + 1)).foldl (fun td2 j0 =>
      let i := i0 + 1
      let j := j0 + 1
      if lldAt t1 (i + l1 - 1) = l1 ∧ lldAt t2 (j + l2 - 1) = l2 then
        setE td2 (i + l1 - 1) (j + l2 - 1) (getE tbl i j)
      else td2) td1) td

/-- `weighted_tree_edit_distance` without `u64` wrap-around. -/
def exactWeightedDistance (t1 t2 : Tree)
    (insertion_cost deletion_cost relabeling_cost : Nat) : Nat :=
  let td := t1.key_roots.foldl (fun td x =>
    t2.key_roots.foldl (fun td y =>
      exactTdStep t1 t2 insertion_cost deletion_cost relabeling_cost td x y) td)
    (zeros t1.post_order.length t2.post_order.length)
  getE td (t1.post_order.length - 1) (t2.post_order.length - 1)

/-- Pure recursive forest distance: `FDS t1 t2 hh1 hh2 ic dc rc a b i j` is the
    value of cell `(i, j)` of the `fd` table for the key-root pair `(a, b)`,
    with the `td` references resolved recursively
    (`td[ni, nj] = FDS ni nj (full window)`).  Guarded to the rectangle of the
    pair so that recursion is well founded. -/
def FDS (t1 t2 : Tree) (hh1 : ∀ k, lldAt t1 k ≤ k) (hh2 : ∀ k, lldAt t2 k ≤ k)
    (ic dc rc : Nat) : Nat → Nat → Nat → Nat → Nat
  | _, _, 0, 0 => 0
  | a, b, i+1, 0 =>
    if i + 1 ≤ a - lldAt t1 a + 1 then
      (FDS t1 t2 hh1 hh2 ic dc rc a b i 0 + dc) % U
    else 0
  | a, b, 0, j+1 =>
    if j + 1 ≤ b - lldAt t2 b + 1 then
      (FDS t1 t2 hh1 hh2 ic dc rc a b 0 j + ic) % U
    else 0
  | a, b, i+1, j+1 =>
    if hg : i + 1 ≤ a - lldAt t1 a + 1 ∧ j + 1 ≤ b - lldAt t2 b + 1 then
      if hc : lldAt t1 (i + lldAt t1 a) = lldAt t1 a ∧
          lldAt t2 (j + lldAt t2 b) = lldAt t2 b then
        min (min ((FDS t1 t2 hh1 hh2 ic dc rc a b i (j+1) + dc) % U)
                 ((FDS t1 t2 hh1 hh2 ic dc rc a b (i+1) j + ic) % U))
          ((FDS t1 t2 hh1 hh2 ic dc rc a b i j +
            label_cmp (nodeAt t1 (i + lldAt t1 a)) (nodeAt t2 (j + lldAt t2 b)) rc) % U)
      else
        min (min ((FDS t1 t2 hh1 hh2 ic dc rc a b i (j+1) + dc) % U)
                 ((FDS t1 t2 hh1 hh2 ic dc rc a b (i+1) j + ic) % U))
          ((FDS t1 t2 hh1 hh2 ic dc rc a b
              (lldAt t1 (i + lldAt t1 a) - lldAt t1 a)
              (lldAt t2 (j + lldAt t2 b) - lldAt t2 b) +
            FDS t1 t2 hh1 hh2 ic dc rc (i + lldAt t1 a) (j + lldAt t2 b)
              ((i + lldAt t1 a) - lldAt t1 (i + lldAt t1 a) + 1)
              ((j + lldAt t2 b) - lldAt t2 (j + lldAt t2 b) + 1)) % U)
    else 0
termination_by a b i j => (a + b, i + j)
decreasing_by
  all_goals first
    | (apply Prod.Lex.right; omega)
    | (apply Prod.Lex.right
       have h3 := hh1 (i + lldAt t1 a)
       have h4 := hh2 (j + lldAt t2 b)
       omega)
    | (apply Prod.Lex.left
       have h1 := hh1 a
       have h2 := hh2 b
       rcases Decidable.not_and_iff_or_not.mp hc with h | h
       · have hne : i + lldAt t1 a ≠ a := fun he => h (by rw [he])
         omega
       · have hne : j + lldAt t2 b ≠ b := fun he => h (by rw [he])
         omega)

/-- Pure recursive tree distance: the fully resolved value of `td[a, b]`. -/
def TDS (t1 t2 : Tree) (hh1 : ∀ k, lldAt t1 k ≤ k) (hh2 : ∀ k, lldAt t2 k ≤ k)
    (ic dc rc : Nat) (a b : Nat) : Nat :=
  FDS t1 t2 hh1 hh2 ic dc rc a b (a - lldAt t1 a + 1) (b - lldAt t2 b + 1)

/-! ### Concrete trees used by the spec's fixtures -/

/-- `T1 = A[B, C, D[E]]`. -/
def exampleT1 : TreeNode :=
  .node "A" [.node "B" [], .node "C" [], .node "D" [.node "E" []]]

/-- `T2 = X[C, Y[Z]]`. -/
def exampleT2 : TreeNode :=
  .node "X" [.node "C" [], .node "Y" [.node "Z" []]]

/-- `A[B, C[E, F], D]`, the index-construction fixture. -/
def fixtureTree : TreeNode :=
  .node "A" [.node "B" [], .node "C" [.node "E" [], .node "F" []], .node "D" []]

/-- Single-node tree. -/
def leaf (l : String) : TreeNode := .node l []

end ZhangShasha

namespace ZhangShasha

/-! ### Claim C1: end-to-end unit-cost scenario -/

/-- C1: for `T1 = A[B, C, D[E]]` and `T2 = X[C, Y[Z]]` the unit-cost tree edit
distance is `4` in both directions. -/
theorem unit_distance_example_both_directions :
    (Tree.new exampleT1).tree_edit_distance (Tree.new exampleT2) = 4 ∧
    (Tree.new exampleT2).tree_edit_distance (Tree.new exampleT1) = 4 := by
  decide

/-! ### Claim C4: index fixture for `A[B, C[E, F], D]`.
The computed `left_most_leaf_descendant` vector is `[0, 1, 2, 1, 4, 0]`
(`F`, at post-order index 2, is a leaf, so its entry is `2`; `C`, at index 3,
has left-most leaf `E` at index 1).  The spec's vector `[0, 1, 1, 2, 4, 0]`
transposes those two entries, so the claim as stated is false on the code. -/

/-- C4 counterexample: the fixture's `left_most_leaf_descendant` is not
`[0, 1, 1, 2, 4, 0]` as the claim states. -/
theorem fixture_lld_not_as_claimed :
    (Tree.new fixtureTree).left_most_leaf_descendant ≠ [0, 1, 1, 2, 4, 0] := by
  decide

/-- C4 amended: building the index for `A[B, C[E, F], D]` yields post-order
labels `B, E, F, C, D, A`, `left_most_leaf_descendant = [0, 1, 2, 1, 4, 0]`
and `key_roots = [2, 3, 4, 5]`. -/
theorem fixture_index_structures :
    (Tree.new fixtureTree).post_order.map TreeNode.label = ["B", "E", "F", "C", "D", "A"] ∧
    (Tree.new fixtureTree).left_most_leaf_descendant = [0, 1, 2, 1, 4, 0] ∧
    (Tree.new fixtureTree).key_roots = [2, 3, 4, 5] := by
  decide

/-! ### Claim C9: single-node trees -/

/-- C9: for single-node trees the unit-cost distance is `0` when the labels
are equal and `1` when they differ, and with costs `(1, 1, 3)` the distance
between `leaf "A"` and `leaf "B"` is `2` (delete plus insert beats a
relabeling of cost 3). -/
theorem single_node_distances :
    (∀ a b : String,
      (Tree.new (leaf a)).tree_edit_distance (Tree.new (leaf b)) =
        if a = b then 0 else 1) ∧
    (Tree.new (leaf "A")).weighted_tree_edit_distance (Tree.new (leaf "B")) 1 1 3 = 2 := by
  refine ⟨fun a b => ?_, by decide⟩
  by_cases h : a = b <;>
    simp [h, leaf, Tree.tree_edit_distance, Tree.weighted_tree_edit_distance, Tree.new,
      keyroots, krNode, krChildren, TreeNode.size, sizeF, tdStep, tdStepP, tdWriteRow,
      tdWriteRowP, fdTable, fdTableP,
      nextRow, baseRow, fdEntry, lldAt, nodeAt, left_most_leaf_descendant,
      TreeNode.post_order, postOrderF, getE, setE, zeros, label_cmp, U,
      TreeNode.label, List.insertionSort, List.orderedInsert, List.range_succ]

/-! ### Claim C10: unchecked `u64` accumulation wraps -/

/-- C10: comparing the two-node tree `a[b]` against the single-node tree `x`
with `insertion_cost = 1`, `deletion_cost = 2^63`, `relabeling_cost = 1`, the
base-column sum `fd[(2, 0)] = 2^63 + 2^63` exceeds `2^64 - 1` and wraps to
`0`, and the function returns `1` while the non-wrapping computation yields
`2^63 + 1`; the returned value is not the true edit distance. -/
theorem wrapped_distance_differs_from_exact :
    (Tree.new (.node "a" [.node "b" []])).weighted_tree_edit_distance
        (Tree.new (.node "x" [])) 1 (2 ^ 63) 1 = 1 ∧
    exactWeightedDistance (Tree.new (.node "a" [.node "b" []]))
        (Tree.new (.node "x" [])) 1 (2 ^ 63) 1 = 2 ^ 63 + 1 ∧
    getE (fdTable (Tree.new (.node "a" [.node "b" []])) (Tree.new (.node "x" []))
        1 (2 ^ 63) 1 1 0 (zeros 2 1)) 2 0 = 0 ∧
    getE (exactFdTable (Tree.new (.node "a" [.node "b" []])) (Tree.new (.node "x" []))
        1 (2 ^ 63) 1 1 0 (zeros 2 1)) 2 0 = 2 ^ 64 ∧
    (1 : Nat) ≠ 2 ^ 63 + 1 := by
  refine ⟨by decide, by decide, by decide, by decide, by decide⟩

/-! ## Lemma layer: table recurrences, write-loop characterizations, structural facts -/


/-! baseRow lemmas -/

theorem baseRow_succ (ic w : Nat) :
    baseRow ic (w + 1) =
      baseRow ic w ++ [((baseRow ic w).getLast?.getD 0 + ic) % U] := by
  simp [baseRow, List.range_succ]

theorem baseRow_length (ic w : Nat) : (baseRow ic w).length = w + 1 := by
  induction w with
  | zero => rfl
  | succ w ih => simp [baseRow_succ, ih]

theorem baseRow_getD (ic : Nat) : ∀ w j : Nat, j ≤ w →
    (baseRow ic w).getD j 0 = (j * ic) % U := by
  intro w
  induction w with
  | zero =>
    intro j h
    interval_cases j
    simp [baseRow]
  | succ w ih =>
    intro j h
    rcases Nat.lt_or_ge j (w + 1) with hj | hj
    · rw [baseRow_succ, List.getD_append _ _ _ _ (by rw [baseRow_length]; omega)]
      exact ih j (by omega)
    · have hjw : j = w + 1 := by omega
      subst hjw
      rw [baseRow_succ, List.getD_append_right _ _ _ _ (by rw [baseRow_length])]
      have hlast : (baseRow ic w).getLast? = some ((w * ic) % U) := by
        rw [List.getLast?_eq_getElem? (baseRow ic w), baseRow_length]
        have h1 : (baseRow ic w)[w]? = some ((baseRow ic w).getD w 0) := by
          rw [List.getElem?_eq_getElem (by rw [baseRow_length]; omega)]
          rw [List.getD_eq_getElem _ _ (by rw [baseRow_length]; omega)]
        rw [ih w (Nat.le_refl w)] at h1
        simpa using h1
      rw [baseRow_length]
      simp only [Nat.sub_self, hlast]
      simp [Nat.mod_add_mod, Nat.succ_mul]

/-! nextRow lemmas -/

theorem nextRow_succ (t1 t2 : Tree) (ic dc rc x y : Nat) (td rows : List (List Nat))
    (w i : Nat) :
    nextRow t1 t2 ic dc rc x y td rows (w + 1) i =
      nextRow t1 t2 ic dc rc x y td rows w i ++
        [fdEntry t1 t2 ic dc rc x y td rows
          (nextRow t1 t2 ic dc rc x y td rows w i) i (w + 1)] := by
  simp [nextRow, List.range_succ]

theorem nextRow_length (t1 t2 : Tree) (ic dc rc x y : Nat) (td rows : List (List Nat))
    (w i : Nat) : (nextRow t1 t2 ic dc rc x y td rows w i).length = w + 1 := by
  induction w with
  | zero => rfl
  | succ w ih => simp [nextRow_succ, ih]

theorem nextRow_getD_stable (t1 t2 : Tree) (ic dc rc x y : Nat)
    (td rows : List (List Nat)) (i : Nat) :
    ∀ w w' j : Nat, w ≤ w' → j ≤ w →
      (nextRow t1 t2 ic dc rc x y td rows w' i).getD j 0 =
        (nextRow t1 t2 ic dc rc x y td rows w i).getD j 0 := by
  intro w w' j hww hjw
  induction w' with
  | zero =>
    have : w = 0 := by omega
    subst this
    rfl
  | succ w' ih =>
    rcases Nat.lt_or_ge w (w' + 1) with hlt | hge
    · rw [nextRow_succ, List.getD_append _ _ _ _ (by rw [nextRow_length]; omega)]
      exact ih (by omega)
    · have : w = w' + 1 := by omega
      subst this
      rfl

theorem nextRow_getD_zero (t1 t2 : Tree) (ic dc rc x y : Nat)
    (td rows : List (List Nat)) (w i : Nat) :
    (nextRow t1 t2 ic dc rc x y td rows w i).getD 0 0 =
      (getE rows (i - 1) 0 + dc) % U := by
  induction w with
  | zero => rfl
  | succ w ih =>
    rw [nextRow_succ, List.getD_append _ _ _ _ (by rw [nextRow_length]; omega)]
    exact ih

theorem fdEntry_congr_cur (t1 t2 : Tree) (ic dc rc x y : Nat)
    (td rows : List (List Nat)) (cur cur' : List Nat) (i j : Nat)
    (h : cur.getD (j - 1) 0 = cur'.getD (j - 1) 0) :
    fdEntry t1 t2 ic dc rc x y td rows cur i j =
      fdEntry t1 t2 ic dc rc x y td rows cur' i j := by
  simp only [fdEntry, h]

theorem nextRow_getD_succ (t1 t2 : Tree) (ic dc rc x y : Nat)
    (td rows : List (List Nat)) (i : Nat) :
    ∀ w j : Nat, j + 1 ≤ w →
    (nextRow t1 t2 ic dc rc x y td rows w i).getD (j + 1) 0 =
      fdEntry t1 t2 ic dc rc x y td rows
        (nextRow t1 t2 ic dc rc x y td rows w i) i (j + 1) := by
  intro w
  induction w with
  | zero => intro j h; omega
  | succ w ih =>
    intro j h
    rcases Nat.lt_or_ge (j + 1) (w + 1) with hlt | hge
    · rw [nextRow_succ, List.getD_append _ _ _ _ (by rw [nextRow_length]; omega)]
      rw [ih j (by omega)]
      apply fdEntry_congr_cur
      simp only [Nat.add_sub_cancel]
      rw [List.getD_append _ _ _ _ (by rw [nextRow_length]; omega)]
    · have hj : j = w := by omega
      subst hj
      rw [nextRow_succ, List.getD_append_right _ _ _ _ (by rw [nextRow_length])]
      rw [nextRow_length]
      simp only [Nat.sub_self, List.getD_cons_zero]
      apply fdEntry_congr_cur
      simp only [Nat.add_sub_cancel]
      rw [List.getD_append _ _ _ _ (by rw [nextRow_length]; omega)]

/-! fdTableP lemmas -/

theorem fdTableP_zero (t1 t2 : Tree) (ic dc rc x y : Nat) (td : List (List Nat)) :
    fdTableP t1 t2 ic dc rc x y td 0 = [baseRow ic (y - lldAt t2 y + 1)] := rfl

theorem fdTableP_succ (t1 t2 : Tree) (ic dc rc x y : Nat) (td : List (List Nat))
    (h : Nat) :
    fdTableP t1 t2 ic dc rc x y td (h + 1) =
      fdTableP t1 t2 ic dc rc x y td h ++
        [nextRow t1 t2 ic dc rc x y td (fdTableP t1 t2 ic dc rc x y td h)
          (y - lldAt t2 y + 1) (h + 1)] := by
  simp [fdTableP, List.range_succ]

theorem fdTableP_length (t1 t2 : Tree) (ic dc rc x y : Nat) (td : List (List Nat))
    (h : Nat) : (fdTableP t1 t2 ic dc rc x y td h).length = h + 1 := by
  induction h with
  | zero => rfl
  | succ h ih => simp [fdTableP_succ, ih]

theorem fdTableP_getD_stable (t1 t2 : Tree) (ic dc rc x y : Nat)
    (td : List (List Nat)) :
    ∀ h h' i : Nat, h ≤ h' → i ≤ h →
      (fdTableP t1 t2 ic dc rc x y td h').getD i [] =
        (fdTableP t1 t2 ic dc rc x y td h).getD i [] := by
  intro h h' i hhh hih
  induction h' with
  | zero =>
    have : h = 0 := by omega
    subst this
    rfl
  | succ h' ih =>
    rcases Nat.lt_or_ge h (h' + 1) with hlt | hge
    · rw [fdTableP_succ, List.getD_append _ _ _ _ (by rw [fdTableP_length]; omega)]
      exact ih (by omega)
    · have : h = h' + 1 := by omega
      subst this
      rfl

theorem fdTableP_getD_zero (t1 t2 : Tree) (ic dc rc x y : Nat)
    (td : List (List Nat)) (h : Nat) :
    (fdTableP t1 t2 ic dc rc x y td h).getD 0 [] = baseRow ic (y - lldAt t2 y + 1) := by
  have hs := fdTableP_getD_stable t1 t2 ic dc rc x y td 0 h 0 (by omega) (by omega)
  rw [hs, fdTableP_zero]
  rfl

theorem fdTableP_getD_row (t1 t2 : Tree) (ic dc rc x y : Nat)
    (td : List (List Nat)) (h i : Nat) (h1 : 1 ≤ i) (h2 : i ≤ h) :
    (fdTableP t1 t2 ic dc rc x y td h).getD i [] =
      nextRow t1 t2 ic dc rc x y td (fdTableP t1 t2 ic dc rc x y td (i - 1))
        (y - lldAt t2 y + 1) i := by
  have hs := fdTableP_getD_stable t1 t2 ic dc rc x y td i h i h2 (by omega)
  rw [hs]
  obtain ⟨i0, rfl⟩ : ∃ i0, i = i0 + 1 := ⟨i - 1, by omega⟩
  rw [fdTableP_succ, List.getD_append_right _ _ _ _ (by rw [fdTableP_length])]
  rw [fdTableP_length]
  simp only [Nat.sub_self, List.getD_cons_zero, Nat.add_sub_cancel]

/-! fdTable interface lemmas -/

theorem fdTable_eq_P (t1 t2 : Tree) (ic dc rc x y : Nat) (td : List (List Nat)) :
    fdTable t1 t2 ic dc rc x y td =
      fdTableP t1 t2 ic dc rc x y td (x - lldAt t1 x + 1) := rfl

theorem getE_fdTableP_congr (t1 t2 : Tree) (ic dc rc x y : Nat) (td : List (List Nat))
    (h h' r c : Nat) (hr : r ≤ h) (hr' : r ≤ h') :
    getE (fdTableP t1 t2 ic dc rc x y td h) r c =
      getE (fdTableP t1 t2 ic dc rc x y td h') r c := by
  unfold getE
  rw [fdTableP_getD_stable t1 t2 ic dc rc x y td r h r hr (Nat.le_refl r),
    fdTableP_getD_stable t1 t2 ic dc rc x y td r h' r hr' (Nat.le_refl r)]

theorem fdTable_row0 (t1 t2 : Tree) (ic dc rc x y : Nat) (td : List (List Nat))
    (j : Nat) (hj : j ≤ y - lldAt t2 y + 1) :
    getE (fdTable t1 t2 ic dc rc x y td) 0 j = (j * ic) % U := by
  unfold getE fdTable
  rw [fdTableP_getD_zero]
  exact baseRow_getD ic _ j hj

theorem fdTable_col0 (t1 t2 : Tree) (ic dc rc x y : Nat) (td : List (List Nat)) :
    ∀ i : Nat, i ≤ x - lldAt t1 x + 1 →
    getE (fdTable t1 t2 ic dc rc x y td) i 0 = (i * dc) % U := by
  intro i
  induction i with
  | zero =>
    intro _
    have := fdTable_row0 t1 t2 ic dc rc x y td 0 (by omega)
    simpa using this
  | succ i ih =>
    intro hiH
    have hrow : (fdTable t1 t2 ic dc rc x y td).getD (i + 1) [] =
        nextRow t1 t2 ic dc rc x y td (fdTableP t1 t2 ic dc rc x y td i)
          (y - lldAt t2 y + 1) (i + 1) := by
      have := fdTableP_getD_row t1 t2 ic dc rc x y td _ (i + 1) (by omega) hiH
      simpa [fdTable_eq_P] using this
    show ((fdTable t1 t2 ic dc rc x y td).getD (i + 1) []).getD 0 0 = _
    rw [hrow, nextRow_getD_zero]
    simp only [Nat.add_sub_cancel]
    rw [getE_fdTableP_congr t1 t2 ic dc rc x y td i (x - lldAt t1 x + 1) i 0
      (Nat.le_refl i) (by omega)]
    rw [← fdTable_eq_P, ih (by omega)]
    simp [Nat.mod_add_mod, Nat.succ_mul]

theorem fdTable_entry (t1 t2 : Tree) (ic dc rc x y : Nat) (td : List (List Nat))
    (i j : Nat) (hi1 : 1 ≤ i) (hiH : i ≤ x - lldAt t1 x + 1)
    (hj1 : 1 ≤ j) (hjW : j ≤ y - lldAt t2 y + 1)
    (hlld : lldAt t1 (i + lldAt t1 x - 1) ≤ i + lldAt t1 x - 1) :
    getE (fdTable t1 t2 ic dc rc x y td) i j =
      if lldAt t1 (i + lldAt t1 x - 1) = lldAt t1 x ∧
          lldAt t2 (j + lldAt t2 y - 1) = lldAt t2 y then
        min (min ((getE (fdTable t1 t2 ic dc rc x y td) (i - 1) j + dc) % U)
                 ((getE (fdTable t1 t2 ic dc rc x y td) i (j - 1) + ic) % U))
          ((getE (fdTable t1 t2 ic dc rc x y td) (i - 1) (j - 1) +
              label_cmp (nodeAt t1 (i + lldAt t1 x - 1)) (nodeAt t2 (j + lldAt t2 y - 1)) rc) % U)
      else
        min (min ((getE (fdTable t1 t2 ic dc rc x y td) (i - 1) j + dc) % U)
                 ((getE (fdTable t1 t2 ic dc rc x y td) i (j - 1) + ic) % U))
          ((getE (fdTable t1 t2 ic dc rc x y td)
              (lldAt t1 (i + lldAt t1 x - 1) - lldAt t1 x)
              (lldAt t2 (j + lldAt t2 y - 1) - lldAt t2 y) +
            getE td (i + lldAt t1 x - 1) (j + lldAt t2 y - 1)) % U) := by
  have hrow : (fdTable t1 t2 ic dc rc x y td).getD i [] =
      nextRow t1 t2 ic dc rc x y td (fdTableP t1 t2 ic dc rc x y td (i - 1))
        (y - lldAt t2 y + 1) i := by
    have := fdTableP_getD_row t1 t2 ic dc rc x y td _ i hi1 hiH
    simpa [fdTable_eq_P] using this
  have hstab : ∀ r c, r ≤ i - 1 →
      getE (fdTableP t1 t2 ic dc rc x y td (i - 1)) r c =
        getE (fdTable t1 t2 ic dc rc x y td) r c := by
    intro r c hr
    rw [fdTable_eq_P]
    exact getE_fdTableP_congr t1 t2 ic dc rc x y td (i - 1) _ r c hr (by omega)
  have hcur : ∀ c, (nextRow t1 t2 ic dc rc x y td (fdTableP t1 t2 ic dc rc x y td (i - 1))
        (y - lldAt t2 y + 1) i).getD c 0 =
      getE (fdTable t1 t2 ic dc rc x y td) i c := by
    intro c
    unfold getE
    rw [hrow]
  obtain ⟨j0, rfl⟩ : ∃ j0, j = j0 + 1 := ⟨j - 1, by omega⟩
  have hgoal : getE (fdTable t1 t2 ic dc rc x y td) i (j0 + 1) =
      fdEntry t1 t2 ic dc rc x y td (fdTableP t1 t2 ic dc rc x y td (i - 1))
        (nextRow t1 t2 ic dc rc x y td (fdTableP t1 t2 ic dc rc x y td (i - 1))
          (y - lldAt t2 y + 1) i) i (j0 + 1) := by
    show ((fdTable t1 t2 ic dc rc x y td).getD i []).getD (j0 + 1) 0 = _
    rw [hrow, nextRow_getD_succ _ _ _ _ _ _ _ _ _ _ _ j0 hjW]
  rw [hgoal]
  simp only [fdEntry, Nat.add_sub_cancel]
  rw [hcur j0]
  rw [hstab (i - 1) (j0 + 1) (by omega), hstab (i - 1) j0 (by omega)]
  rw [hstab (lldAt t1 (i + lldAt t1 x - 1) - lldAt t1 x)
        (lldAt t2 (j0 + 1 + lldAt t2 y - 1) - lldAt t2 y) (by omega)]

/-! matrix lemmas -/

theorem getD_set_self (l : List Nat) (i v : Nat) (h : i < l.length) :
    (l.set i v).getD i 0 = v := by
  rw [List.getD_eq_getD_get?, List.get?_eq_getElem?, List.getElem?_set_self h]
  rfl

theorem getD_set_ne (l : List Nat) (i j v : Nat) (h : i ≠ j) :
    (l.set i v).getD j 0 = l.getD j 0 := by
  rw [List.getD_eq_getD_get?, List.get?_eq_getElem?, List.getElem?_set_ne h,
    ← List.get?_eq_getElem?, ← List.getD_eq_getD_get?]

theorem getDr_set_self (l : List (List Nat)) (i : Nat) (v : List Nat) (h : i < l.length) :
    (l.set i v).getD i [] = v := by
  rw [List.getD_eq_getD_get?, List.get?_eq_getElem?, List.getElem?_set_self h]
  rfl

theorem getDr_set_ne (l : List (List Nat)) (i j : Nat) (v : List Nat) (h : i ≠ j) :
    (l.set i v).getD j [] = l.getD j [] := by
  rw [List.getD_eq_getD_get?, List.get?_eq_getElem?, List.getElem?_set_ne h,
    ← List.get?_eq_getElem?, ← List.getD_eq_getD_get?]

theorem wfMat_zeros (r c : Nat) : wfMat (zeros r c) r c := by
  constructor
  · simp [zeros]
  · intro i hi
    have : (zeros r c).getD i [] = List.replicate c 0 := by
      rw [List.getD_eq_getElem _ _ (by simp [zeros]; omega)]
      simp [zeros]
    rw [this]
    simp

theorem getD_replicate_zero (c b : Nat) : (List.replicate c (0 : Nat)).getD b 0 = 0 := by
  rcases Nat.lt_or_ge b c with hb | hb
  · rw [List.getD_eq_getElem _ _ (by simpa using hb)]
    simp
  · rw [List.getD_eq_default _ _ (by simpa using hb)]

theorem getE_zeros (r c a b : Nat) : getE (zeros r c) a b = 0 := by
  unfold getE zeros
  rcases Nat.lt_or_ge a r with ha | ha
  · have h1 : (List.replicate r (List.replicate c (0 : Nat))).getD a [] =
        List.replicate c 0 := by
      rw [List.getD_eq_getElem _ _ (by simpa using ha)]
      simp
    rw [h1, getD_replicate_zero]
  · have h2 : (List.replicate r (List.replicate c (0 : Nat))).getD a [] = [] :=
      List.getD_eq_default _ _ (by simpa using ha)
    rw [h2]
    rfl

theorem wfMat_setE (m : List (List Nat)) (r c i j v : Nat) (h : wfMat m r c) :
    wfMat (setE m i j v) r c := by
  obtain ⟨hlen, hrow⟩ := h
  constructor
  · simp [setE, hlen]
  · intro a ha
    by_cases hai : a = i
    · subst hai
      rw [setE, getDr_set_self _ _ _ (by omega)]
      rw [List.length_set]
      exact hrow a ha
    · rw [setE, getDr_set_ne _ _ _ _ (fun hh => hai hh.symm)]
      exact hrow a ha

theorem getE_setE_self (m : List (List Nat)) (r c i j v : Nat) (h : wfMat m r c)
    (hi : i < r) (hj : j < c) : getE (setE m i j v) i j = v := by
  obtain ⟨hlen, hrow⟩ := h
  unfold getE setE
  rw [getDr_set_self _ _ _ (by omega)]
  rw [getD_set_self _ _ _ (by rw [hrow i hi]; omega)]

theorem getE_setE_ne (m : List (List Nat)) (i j a b v : Nat)
    (h : ¬(a = i ∧ b = j)) : getE (setE m i j v) a b = getE m a b := by
  unfold getE setE
  by_cases hai : a = i
  · subst hai
    have hbj : b ≠ j := fun hh => h ⟨rfl, hh⟩
    by_cases hin : a < m.length
    · rw [getDr_set_self _ _ _ hin, getD_set_ne _ _ _ _ (fun hh => hbj hh.symm)]
    · rw [List.set_eq_of_length_le (by omega)]
  · rw [getDr_set_ne _ _ _ _ (fun hh => hai hh.symm)]

/-! write-loop lemmas -/

theorem tdWriteRowP_succ (t1 t2 : Tree) (tbl : List (List Nat)) (x y i : Nat)
    (td : List (List Nat)) (w : Nat) :
    tdWriteRowP t1 t2 tbl x y i td (w + 1) =
      (if lldAt t1 (i + lldAt t1 x - 1) = lldAt t1 x ∧
          lldAt t2 (w + 1 + lldAt t2 y - 1) = lldAt t2 y then
        setE (tdWriteRowP t1 t2 tbl x y i td w)
          (i + lldAt t1 x - 1) (w + 1 + lldAt t2 y - 1) (getE tbl i (w + 1))
      else tdWriteRowP t1 t2 tbl x y i td w) := by
  simp [tdWriteRowP, List.range_succ]

theorem wfMat_tdWriteRowP (t1 t2 : Tree) (tbl : List (List Nat)) (x y i : Nat)
    (td : List (List Nat)) (n1 n2 : Nat) (h : wfMat td n1 n2) :
    ∀ w, wfMat (tdWriteRowP t1 t2 tbl x y i td w) n1 n2 := by
  intro w
  induction w with
  | zero => exact h
  | succ w ih =>
    rw [tdWriteRowP_succ]
    split
    · exact wfMat_setE _ _ _ _ _ _ ih
    · exact ih

theorem getE_tdWriteRowP (t1 t2 : Tree) (tbl : List (List Nat)) (x y i : Nat)
    (td : List (List Nat)) (n1 n2 : Nat) (hwf : wfMat td n1 n2)
    (hrow : i + lldAt t1 x - 1 < n1) :
    ∀ w, w + lldAt t2 y ≤ n2 → ∀ a b,
    getE (tdWriteRowP t1 t2 tbl x y i td w) a b =
      if a = i + lldAt t1 x - 1 ∧ lldAt t1 (i + lldAt t1 x - 1) = lldAt t1 x ∧
          lldAt t2 y ≤ b ∧ b < lldAt t2 y + w ∧ lldAt t2 b = lldAt t2 y then
        getE tbl i (b - lldAt t2 y + 1)
      else getE td a b := by
  intro w
  induction w with
  | zero =>
    intro _ a b
    rw [if_neg (by omega)]
    rfl
  | succ w ih =>
    intro hcol a b
    rw [tdWriteRowP_succ]
    by_cases hb : a = i + lldAt t1 x - 1 ∧ b = w + lldAt t2 y
    · obtain ⟨ha1, hb1⟩ := hb
      subst ha1
      subst hb1
      by_cases hc : lldAt t1 (i + lldAt t1 x - 1) = lldAt t1 x ∧
          lldAt t2 (w + 1 + lldAt t2 y - 1) = lldAt t2 y
      · rw [if_pos hc]
        have hw1 : w + 1 + lldAt t2 y - 1 = w + lldAt t2 y := by omega
        rw [hw1] at hc ⊢
        rw [getE_setE_self _ n1 n2 _ _ _
          (wfMat_tdWriteRowP t1 t2 tbl x y i td n1 n2 hwf w) hrow (by omega)]
        rw [if_pos ⟨rfl, hc.1, by omega, by omega, hc.2⟩]
        congr 1
        omega
      · rw [if_neg (by rw [show w + 1 + lldAt t2 y - 1 = w + lldAt t2 y from by omega] at hc ⊢; exact hc)]
        rw [ih (by omega)]
        rw [if_neg (by omega)]
        rw [if_neg ?hneg]
        case hneg =>
          intro hfull
          apply hc
          rw [show w + 1 + lldAt t2 y - 1 = w + lldAt t2 y from by omega]
          exact ⟨hfull.2.1, hfull.2.2.2.2⟩
    · have hstep : ∀ m : List (List Nat),
          getE (if lldAt t1 (i + lldAt t1 x - 1) = lldAt t1 x ∧
              lldAt t2 (w + 1 + lldAt t2 y - 1) = lldAt t2 y then
            setE m (i + lldAt t1 x - 1) (w + 1 + lldAt t2 y - 1) (getE tbl i (w + 1))
          else m) a b = getE m a b := by
        intro m
        split
        · exact getE_setE_ne _ _ _ _ _ _ (by
            intro hh
            exact hb ⟨hh.1, by omega⟩)
        · rfl
      rw [hstep]
      rw [ih (by omega)]
      by_cases hful : a = i + lldAt t1 x - 1 ∧ lldAt t1 (i + lldAt t1 x - 1) = lldAt t1 x ∧
          lldAt t2 y ≤ b ∧ b < lldAt t2 y + w ∧ lldAt t2 b = lldAt t2 y
      · rw [if_pos hful, if_pos ⟨hful.1, hful.2.1, hful.2.2.1, by omega, hful.2.2.2.2⟩]
      · rw [if_neg hful, if_neg (by
          intro hfull
          apply hful
          refine ⟨hfull.1, hfull.2.1, hfull.2.2.1, ?_, hfull.2.2.2.2⟩
          rcases Nat.lt_or_ge b (lldAt t2 y + w) with hlt | hge
          · exact hlt
          · exfalso
            apply hb
            exact ⟨hfull.1, by omega⟩)]

theorem wfMat_tdWriteRow (t1 t2 : Tree) (tbl : List (List Nat)) (x y i : Nat)
    (td : List (List Nat)) (n1 n2 : Nat) (h : wfMat td n1 n2) :
    wfMat (tdWriteRow t1 t2 tbl x y i td) n1 n2 :=
  wfMat_tdWriteRowP t1 t2 tbl x y i td n1 n2 h _

theorem getE_tdWriteRow (t1 t2 : Tree) (tbl : List (List Nat)) (x y i : Nat)
    (td : List (List Nat)) (n1 n2 : Nat) (hwf : wfMat td n1 n2)
    (hrow : i + lldAt t1 x - 1 < n1) (hy : y < n2) (hly : lldAt t2 y ≤ y) (a b : Nat) :
    getE (tdWriteRow t1 t2 tbl x y i td) a b =
      if a = i + lldAt t1 x - 1 ∧ lldAt t1 (i + lldAt t1 x - 1) = lldAt t1 x ∧
          lldAt t2 y ≤ b ∧ b ≤ y ∧ lldAt t2 b = lldAt t2 y then
        getE tbl i (b - lldAt t2 y + 1)
      else getE td a b := by
  unfold tdWriteRow
  rw [getE_tdWriteRowP t1 t2 tbl x y i td n1 n2 hwf hrow _ (by omega) a b]
  have hiff : (b < lldAt t2 y + (y - lldAt t2 y + 1)) ↔ b ≤ y := by omega
  by_cases hful : a = i + lldAt t1 x - 1 ∧ lldAt t1 (i + lldAt t1 x - 1) = lldAt t1 x ∧
      lldAt t2 y ≤ b ∧ b ≤ y ∧ lldAt t2 b = lldAt t2 y
  · rw [if_pos hful, if_pos ⟨hful.1, hful.2.1, hful.2.2.1, by omega, hful.2.2.2.2⟩]
  · rw [if_neg hful, if_neg (fun hh => hful ⟨hh.1, hh.2.1, hh.2.2.1, by omega, hh.2.2.2.2⟩)]

theorem tdStepP_succ (t1 t2 : Tree) (tbl : List (List Nat)) (x y : Nat)
    (td : List (List Nat)) (h : Nat) :
    tdStepP t1 t2 tbl x y td (h + 1) =
      tdWriteRow t1 t2 tbl x y (h + 1) (tdStepP t1 t2 tbl x y td h) := by
  simp [tdStepP, List.range_succ]

theorem wfMat_tdStepP (t1 t2 : Tree) (tbl : List (List Nat)) (x y : Nat)
    (td : List (List Nat)) (n1 n2 : Nat) (hwf : wfMat td n1 n2) :
    ∀ h, wfMat (tdStepP t1 t2 tbl x y td h) n1 n2 := by
  intro h
  induction h with
  | zero => exact hwf
  | succ h ih =>
    rw [tdStepP_succ]
    exact wfMat_tdWriteRow _ _ _ _ _ _ _ _ _ ih

theorem getE_tdStepP (t1 t2 : Tree) (tbl : List (List Nat)) (x y : Nat)
    (td : List (List Nat)) (n1 n2 : Nat) (hwf : wfMat td n1 n2)
    (hy : y < n2) (hly : lldAt t2 y ≤ y) :
    ∀ h, h + lldAt t1 x ≤ n1 → ∀ a b,
    getE (tdStepP t1 t2 tbl x y td h) a b =
      if lldAt t1 x ≤ a ∧ a < lldAt t1 x + h ∧ lldAt t1 a = lldAt t1 x ∧
          lldAt t2 y ≤ b ∧ b ≤ y ∧ lldAt t2 b = lldAt t2 y then
        getE tbl (a - lldAt t1 x + 1) (b - lldAt t2 y + 1)
      else getE td a b := by
  intro h
  induction h with
  | zero =>
    intro _ a b
    rw [if_neg (by omega)]
    rfl
  | succ h ih =>
    intro hn1 a b
    rw [tdStepP_succ]
    rw [getE_tdWriteRow t1 t2 tbl x y (h + 1) _ n1 n2
      (wfMat_tdStepP t1 t2 tbl x y td n1 n2 hwf h) (by omega) hy hly a b]
    have hrow : h + 1 + lldAt t1 x - 1 = h + lldAt t1 x := by omega
    by_cases hnew : a = h + lldAt t1 x ∧ lldAt t1 a = lldAt t1 x ∧
        lldAt t2 y ≤ b ∧ b ≤ y ∧ lldAt t2 b = lldAt t2 y
    · rw [if_pos (by rw [hrow]; exact ⟨hnew.1, by rw [← hnew.1]; exact hnew.2.1,
        hnew.2.2.1, hnew.2.2.2.1, hnew.2.2.2.2⟩)]
      rw [if_pos ⟨by omega, by omega, hnew.2.1, hnew.2.2.1, hnew.2.2.2.1, hnew.2.2.2.2⟩]
      rw [hnew.1]
      congr 2
      omega
    · rw [if_neg (by
        rw [hrow]
        intro hh
        exact hnew ⟨hh.1, by rw [hh.1]; exact hh.2.1, hh.2.2.1, hh.2.2.2.1, hh.2.2.2.2⟩)]
      rw [ih (by omega)]
      by_cases hful : lldAt t1 x ≤ a ∧ a < lldAt t1 x + h ∧ lldAt t1 a = lldAt t1 x ∧
          lldAt t2 y ≤ b ∧ b ≤ y ∧ lldAt t2 b = lldAt t2 y
      · rw [if_pos hful, if_pos ⟨hful.1, by omega, hful.2.2.1, hful.2.2.2.1,
          hful.2.2.2.2.1, hful.2.2.2.2.2⟩]
      · rw [if_neg hful, if_neg (by
          intro hh
          rcases Nat.lt_or_ge a (lldAt t1 x + h) with hlt | hge
          · exact hful ⟨hh.1, hlt, hh.2.2.1, hh.2.2.2.1, hh.2.2.2.2.1, hh.2.2.2.2.2⟩
          · exact hnew ⟨by omega, hh.2.2.1, hh.2.2.2.1, hh.2.2.2.2.1, hh.2.2.2.2.2⟩)]

theorem wfMat_tdStep (t1 t2 : Tree) (ic dc rc : Nat) (td : List (List Nat)) (x y : Nat)
    (n1 n2 : Nat) (hwf : wfMat td n1 n2) :
    wfMat (tdStep t1 t2 ic dc rc td x y) n1 n2 :=
  wfMat_tdStepP _ _ _ _ _ _ _ _ hwf _

theorem getE_tdStep (t1 t2 : Tree) (ic dc rc : Nat) (td : List (List Nat)) (x y : Nat)
    (n1 n2 : Nat) (hwf : wfMat td n1 n2) (hx : x < n1) (hlx : lldAt t1 x ≤ x)
    (hy : y < n2) (hly : lldAt t2 y ≤ y) (a b : Nat) :
    getE (tdStep t1 t2 ic dc rc td x y) a b =
      if lldAt t1 x ≤ a ∧ a ≤ x ∧ lldAt t1 a = lldAt t1 x ∧
          lldAt t2 y ≤ b ∧ b ≤ y ∧ lldAt t2 b = lldAt t2 y then
        getE (fdTable t1 t2 ic dc rc x y td) (a - lldAt t1 x + 1) (b - lldAt t2 y + 1)
      else getE td a b := by
  unfold tdStep
  rw [getE_tdStepP t1 t2 _ x y td n1 n2 hwf hy hly _ (by omega) a b]
  by_cases hful : lldAt t1 x ≤ a ∧ a ≤ x ∧ lldAt t1 a = lldAt t1 x ∧
      lldAt t2 y ≤ b ∧ b ≤ y ∧ lldAt t2 b = lldAt t2 y
  · rw [if_pos ⟨hful.1, by omega, hful.2.2.1, hful.2.2.2.1, hful.2.2.2.2.1,
      hful.2.2.2.2.2⟩, if_pos hful]
  · rw [if_neg (fun hh => hful ⟨hh.1, by omega, hh.2.2.1, hh.2.2.2.1, hh.2.2.2.2.1,
      hh.2.2.2.2.2⟩), if_neg hful]

/-! basic structural facts -/

mutual
theorem TreeNode.size_eq_length : ∀ t : TreeNode, t.size = t.post_order.length
  | .node l cs => by
    rw [TreeNode.size, TreeNode.post_order]
    rw [List.length_append, sizeF_eq_length cs]
    rfl
theorem sizeF_eq_length : ∀ cs : List TreeNode, sizeF cs = (postOrderF cs).length
  | [] => rfl
  | c :: cs => by
    rw [sizeF, postOrderF, List.length_append, TreeNode.size_eq_length c,
      sizeF_eq_length cs]
end

theorem TreeNode.size_pos (t : TreeNode) : 1 ≤ t.size := by
  cases t with
  | node l cs => rw [TreeNode.size]; omega

theorem lld_length (po : List TreeNode) :
    (left_most_leaf_descendant po).length = po.length := by
  simp [left_most_leaf_descendant]

theorem lld_getD (po : List TreeNode) (k : Nat) (hk : k < po.length) :
    (left_most_leaf_descendant po).getD k 0 =
      k - ((po.getD k defaultNode).post_order.length - 1) := by
  unfold left_most_leaf_descendant
  rw [List.getD_eq_getD_get?, List.get?_map, List.get?_enum]
  rw [List.getD_eq_getD_get?]
  cases hpo : po.get? k with
  | none =>
    exfalso
    rw [List.get?_eq_none] at hpo
    omega
  | some v => rfl

theorem lldAt_new_le (r : TreeNode) (k : Nat) : lldAt (Tree.new r) k ≤ k := by
  unfold lldAt Tree.new
  rcases Nat.lt_or_ge k r.post_order.length with hk | hk
  · rw [lld_getD r.post_order k hk]
    omega
  · rw [List.getD_eq_default _ _ (by rw [lld_length]; omega)]
    omega

/-! key-root bounds -/

mutual
theorem krNode_bound : ∀ (t : TreeNode) (start : Nat), ∀ k ∈ krNode t start,
    start ≤ k ∧ k < start + t.size
  | .node l cs, start => by
    intro k hk
    rw [krNode] at hk
    have := krChildren_bound cs start true k hk
    rw [TreeNode.size]
    omega
theorem krChildren_bound : ∀ (cs : List TreeNode) (start : Nat) (g : Bool),
    ∀ k ∈ krChildren cs start g, start ≤ k ∧ k < start + sizeF cs
  | [], start, g => by
    intro k hk
    rw [krChildren] at hk
    simp at hk
  | c :: cs, start, g => by
    intro k hk
    rw [krChildren] at hk
    rw [List.mem_append, List.mem_append] at hk
    have hc1 : 1 ≤ c.size := TreeNode.size_pos c
    rcases hk with (hk | hk) | hk
    · rcases g with _ | _
      · simp at hk
        rw [sizeF]
        omega
      · simp at hk
    · have := krNode_bound c start k hk
      rw [sizeF]
      omega
    · have := krChildren_bound cs (start + c.size) false k hk
      rw [sizeF]
      omega
end

theorem keyroots_mem_lt (r : TreeNode) (k : Nat) (hk : k ∈ keyroots r) : k < r.size := by
  unfold keyroots at hk
  rw [List.mem_insertionSort] at hk
  rcases List.mem_cons.mp hk with hk | hk
  · have := TreeNode.size_pos r
    omega
  · have := krNode_bound r 0 k hk
    omega

theorem keyroots_new_mem_lt (r : TreeNode) (k : Nat)
    (hk : k ∈ (Tree.new r).key_roots) : k < (Tree.new r).post_order.length := by
  have h1 : k < r.size := keyroots_mem_lt r k hk
  have h2 := TreeNode.size_eq_length r
  show k < r.post_order.length
  omega

/-! fold preservation helper -/

theorem foldl_preserve {α β : Type} (P : α → Prop) (f : α → β → α) (l : List β)
    (init : α) (h0 : P init) (hstep : ∀ a b, b ∈ l → P a → P (f a b)) :
    P (l.foldl f init) := by
  induction l generalizing init with
  | nil => exact h0
  | cons b l ih =>
    exact ih (f init b) (hstep init b (by simp) h0)
      (fun a b' hb' ha => hstep a b' (by simp [hb']) ha)

/-! identity: the fd table of a pair of equal windows of the same tree is zero
    on the diagonal -/

theorem label_cmp_self (tn : TreeNode) (rc : Nat) : label_cmp tn tn rc = 0 := by
  simp [label_cmp]

theorem fdTable_diag_zero (t : Tree) (ic dc rc x y : Nat)
    (hh : ∀ k, lldAt t k ≤ k) (hl : lldAt t x = lldAt t y)
    (td : List (List Nat)) (htd : ∀ a, getE td a a = 0) :
    ∀ s i, i ≤ s → i ≤ x - lldAt t x + 1 → i ≤ y - lldAt t y + 1 →
      getE (fdTable t t ic dc rc x y td) i i = 0 := by
  intro s
  induction s with
  | zero =>
    intro i hs _ _
    have : i = 0 := by omega
    subst this
    have h0 := fdTable_row0 t t ic dc rc x y td 0 (by omega)
    simpa using h0
  | succ s ih =>
    intro i hs hx' hy'
    rcases Nat.eq_zero_or_pos i with hi0 | hipos
    · subst hi0
      have h0 := fdTable_row0 t t ic dc rc x y td 0 (by omega)
      simpa using h0
    · rw [fdTable_entry t t ic dc rc x y td i i hipos hx' hipos hy' (hh _)]
      rw [← hl]
      split
    
      case isTrue hcond =>
        rw [ih (i - 1) (by omega) (by omega) (by omega)]
        rw [label_cmp_self]
        simp
      case isFalse hcond =>
        have hd : lldAt t (i + lldAt t x - 1) - lldAt t x ≤ i - 1 := by
          have := hh (i + lldAt t x - 1)
          omega
        rw [htd (i + lldAt t x - 1)]
        rw [ih (lldAt t (i + lldAt t x - 1) - lldAt t x) (by omega) (by omega) (by omega)]
        simp
theorem self_weighted_distance_zero (r : TreeNode) (ic dc rc : Nat) :
    (Tree.new r).weighted_tree_edit_distance (Tree.new r) ic dc rc = 0 := by
  have hh : ∀ k, lldAt (Tree.new r) k ≤ k := lldAt_new_le r
  have hkr : ∀ k ∈ (Tree.new r).key_roots, k < (Tree.new r).post_order.length :=
    keyroots_new_mem_lt r
  rw [Tree.weighted_tree_edit_distance]
  have hfold := foldl_preserve
    (fun td => wfMat td (Tree.new r).post_order.length (Tree.new r).post_order.length ∧
      ∀ a, getE td a a = 0)
    (fun td x => (Tree.new r).key_roots.foldl (fun td y =>
      tdStep (Tree.new r) (Tree.new r) ic dc rc td x y) td)
    (Tree.new r).key_roots
    (zeros (Tree.new r).post_order.length (Tree.new r).post_order.length)
    ⟨wfMat_zeros _ _, fun a => getE_zeros _ _ a a⟩
    (by
      intro td x hx htd
      refine foldl_preserve
        (fun td => wfMat td (Tree.new r).post_order.length (Tree.new r).post_order.length ∧
          ∀ a, getE td a a = 0)
        (fun td y => tdStep (Tree.new r) (Tree.new r) ic dc rc td x y)
        (Tree.new r).key_roots td htd ?_
      intro td' y hy htd'
      refine ⟨wfMat_tdStep _ _ _ _ _ _ _ _ _ _ htd'.1, ?_⟩
      intro a
      rw [getE_tdStep (Tree.new r) (Tree.new r) ic dc rc td' x y _ _ htd'.1
        (hkr x hx) (hh x) (hkr y hy) (hh y) a a]
      split
      case isTrue hcond =>
        have hl : lldAt (Tree.new r) x = lldAt (Tree.new r) y := by
          rw [← hcond.2.2.1, ← hcond.2.2.2.2.2]
        have hsame : a - lldAt (Tree.new r) y + 1 = a - lldAt (Tree.new r) x + 1 := by
          rw [hl]
        rw [hsame]
        exact fdTable_diag_zero (Tree.new r) ic dc rc x y hh hl td' htd'.2
          (a - lldAt (Tree.new r) x + 1) _ (Nat.le_refl _) (by omega) (by
            have := hcond.2.2.2.2.1
            omega)
      case isFalse hcond => exact htd'.2 a)
  exact hfold.2 _

/-! all-zero costs give an all-zero table -/

theorem label_cmp_zero (tn1 tn2 : TreeNode) : label_cmp tn1 tn2 0 = 0 := by
  simp [label_cmp]

theorem fdTable_zero_costs (t1 t2 : Tree) (x y : Nat)
    (h1 : ∀ k, lldAt t1 k ≤ k) (h2 : ∀ k, lldAt t2 k ≤ k)
    (td : List (List Nat)) (htd : ∀ a b, getE td a b = 0) :
    ∀ s i j, i + j ≤ s → i ≤ x - lldAt t1 x + 1 → j ≤ y - lldAt t2 y + 1 →
      getE (fdTable t1 t2 0 0 0 x y td) i j = 0 := by
  intro s
  induction s with
  | zero =>
    intro i j hs _ _
    have hi : i = 0 := by omega
    have hj : j = 0 := by omega
    subst hi; subst hj
    have h0 := fdTable_row0 t1 t2 0 0 0 x y td 0 (by omega)
    simpa using h0
  | succ s ih =>
    intro i j hs hx' hy'
    rcases Nat.eq_zero_or_pos i with hi0 | hipos
    · subst hi0
      have h0 := fdTable_row0 t1 t2 0 0 0 x y td j hy'
      simpa using h0
    rcases Nat.eq_zero_or_pos j with hj0 | hjpos
    · subst hj0
      have h0 := fdTable_col0 t1 t2 0 0 0 x y td i hx'
      simpa using h0
    rw [fdTable_entry t1 t2 0 0 0 x y td i j hipos hx' hjpos hy' (h1 _)]
    have e1 : getE (fdTable t1 t2 0 0 0 x y td) (i - 1) j = 0 :=
      ih (i - 1) j (by omega) (by omega) hy'
    have e2 : getE (fdTable t1 t2 0 0 0 x y td) i (j - 1) = 0 :=
      ih i (j - 1) (by omega) hx' (by omega)
    split
    case isTrue hcond =>
      have e3 : getE (fdTable t1 t2 0 0 0 x y td) (i - 1) (j - 1) = 0 :=
        ih (i - 1) (j - 1) (by omega) (by omega) (by omega)
      rw [e1, e2, e3, label_cmp_zero]
      simp
    case isFalse hcond =>
      have hd1 : lldAt t1 (i + lldAt t1 x - 1) - lldAt t1 x ≤ i - 1 := by
        have := h1 (i + lldAt t1 x - 1)
        omega
      have hd2 : lldAt t2 (j + lldAt t2 y - 1) - lldAt t2 y ≤ j - 1 := by
        have := h2 (j + lldAt t2 y - 1)
        omega
      have e3 : getE (fdTable t1 t2 0 0 0 x y td)
          (lldAt t1 (i + lldAt t1 x - 1) - lldAt t1 x)
          (lldAt t2 (j + lldAt t2 y - 1) - lldAt t2 y) = 0 :=
        ih _ _ (by omega) (by omega) (by omega)
      rw [e1, e2, e3, htd]
      simp

theorem zero_costs_distance (r1 r2 : TreeNode) :
    (Tree.new r1).weighted_tree_edit_distance (Tree.new r2) 0 0 0 = 0 := by
  have hh1 : ∀ k, lldAt (Tree.new r1) k ≤ k := lldAt_new_le r1
  have hh2 : ∀ k, lldAt (Tree.new r2) k ≤ k := lldAt_new_le r2
  have hkr1 := keyroots_new_mem_lt r1
  have hkr2 := keyroots_new_mem_lt r2
  rw [Tree.weighted_tree_edit_distance]
  have hfold := foldl_preserve
    (fun td => wfMat td (Tree.new r1).post_order.length (Tree.new r2).post_order.length ∧
      ∀ a b, getE td a b = 0)
    (fun td x => (Tree.new r2).key_roots.foldl (fun td y =>
      tdStep (Tree.new r1) (Tree.new r2) 0 0 0 td x y) td)
    (Tree.new r1).key_roots
    (zeros (Tree.new r1).post_order.length (Tree.new r2).post_order.length)
    ⟨wfMat_zeros _ _, fun a b => getE_zeros _ _ a b⟩
    (by
      intro td x hx htd
      refine foldl_preserve
        (fun td => wfMat td (Tree.new r1).post_order.length (Tree.new r2).post_order.length ∧
          ∀ a b, getE td a b = 0)
        (fun td y => tdStep (Tree.new r1) (Tree.new r2) 0 0 0 td x y)
        (Tree.new r2).key_roots td htd ?_
      intro td' y hy htd'
      refine ⟨wfMat_tdStep _ _ _ _ _ _ _ _ _ _ htd'.1, ?_⟩
      intro a b
      rw [getE_tdStep (Tree.new r1) (Tree.new r2) 0 0 0 td' x y _ _ htd'.1
        (hkr1 x hx) (hh1 x) (hkr2 y hy) (hh2 y) a b]
      split
      case isTrue hcond =>
        exact fdTable_zero_costs (Tree.new r1) (Tree.new r2) x y hh1 hh2 td' htd'.2
          _ _ _ (Nat.le_refl _) (by omega) (by omega)
      case isFalse hcond => exact htd'.2 a b)
  exact hfold.2 _ _

/-! ### Claim C2: distance of a tree to itself is zero -/

/-- C2: for every tree `T`, the unit-cost edit distance of `T` to itself is `0`. -/
theorem self_distance_is_zero (r : TreeNode) :
    (Tree.new r).tree_edit_distance (Tree.new r) = 0 := by
  rw [Tree.tree_edit_distance]
  exact self_weighted_distance_zero r 1 1 1

/-! ### Claim C8: all-zero costs give distance zero -/

/-- C8: for every pair of trees, `weighted_tree_edit_distance` with all three
costs equal to `0` returns `0` regardless of shapes and labels. -/
theorem zero_cost_distance_is_zero (r1 r2 : TreeNode) :
    (Tree.new r1).weighted_tree_edit_distance (Tree.new r2) 0 0 0 = 0 :=
  zero_costs_distance r1 r2

/-! ## Tree-structure layer: post-order blocks, window bounds, covering key roots -/


/-! block decomposition of a forest's post-order -/



theorem offsetOf_zero (cs : List TreeNode) : offsetOf cs 0 = 0 := rfl

theorem offsetOf_succ (c : TreeNode) (cs : List TreeNode) (m : Nat) :
    offsetOf (c :: cs) (m + 1) = c.size + offsetOf cs m := rfl

theorem postOrderF_length (cs : List TreeNode) : (postOrderF cs).length = sizeF cs :=
  (sizeF_eq_length cs).symm

theorem post_order_length (r : TreeNode) : r.post_order.length = r.size :=
  (TreeNode.size_eq_length r).symm

theorem blockGet : ∀ (cs : List TreeNode) (m : Nat) (c : TreeNode),
    cs[m]? = some c → ∀ j, j < c.size →
    (postOrderF cs).getD (offsetOf cs m + j) defaultNode = c.post_order.getD j defaultNode := by
  intro cs
  induction cs with
  | nil => intro m c hm; simp at hm
  | cons c0 cs ih =>
    intro m c hm j hj
    cases m with
    | zero =>
      simp at hm
      subst hm
      rw [offsetOf_zero, Nat.zero_add, postOrderF,
        List.getD_append _ _ _ _ (by rw [post_order_length]; omega)]
    | succ m =>
      simp at hm
      rw [offsetOf_succ, postOrderF,
        List.getD_append_right _ _ _ _ (by rw [post_order_length]; omega)]
      rw [post_order_length]
      have harith : c0.size + offsetOf cs m + j - c0.size = offsetOf cs m + j := by omega
      rw [harith]
      exact ih m c hm j hj

theorem blockCover : ∀ (cs : List TreeNode) (a : Nat), a < sizeF cs →
    ∃ m c, cs[m]? = some c ∧ offsetOf cs m ≤ a ∧ a < offsetOf cs m + c.size := by
  intro cs
  induction cs with
  | nil => intro a ha; rw [sizeF] at ha; omega
  | cons c0 cs ih =>
    intro a ha
    rcases Nat.lt_or_ge a c0.size with hlt | hge
    · exact ⟨0, c0, by simp, by rw [offsetOf_zero]; omega, by rw [offsetOf_zero]; omega⟩
    · rw [sizeF] at ha
      obtain ⟨m, c, hm, h1, h2⟩ := ih (a - c0.size) (by omega)
      exact ⟨m + 1, c, by simpa using hm, by rw [offsetOf_succ]; omega,
        by rw [offsetOf_succ]; omega⟩

/-! subtree size bound: the subtree rooted at post-order index `k` has at most
    `k + 1` nodes -/

mutual
theorem subtree_size_le : ∀ (r : TreeNode) (k : Nat), k < r.size →
    (r.post_order.getD k defaultNode).size ≤ k + 1
  | .node l cs, k => by
    intro hk
    rw [TreeNode.post_order]
    rcases Nat.lt_or_ge k (sizeF cs) with hlt | hge
    · rw [List.getD_append _ _ _ _ (by rw [postOrderF_length]; omega)]
      exact subtree_size_le_forest cs k hlt
    · rw [TreeNode.size] at hk
      have hkeq : k = sizeF cs := by omega
      subst hkeq
      rw [List.getD_append_right _ _ _ _ (by rw [postOrderF_length])]
      rw [postOrderF_length, Nat.sub_self]
      rw [List.getD_cons_zero, TreeNode.size]
theorem subtree_size_le_forest : ∀ (cs : List TreeNode) (k : Nat), k < sizeF cs →
    ((postOrderF cs).getD k defaultNode).size ≤ k + 1
  | [], k => by intro hk; rw [sizeF] at hk; omega
  | c :: cs, k => by
    intro hk
    rw [postOrderF]
    rcases Nat.lt_or_ge k c.size with hlt | hge
    · rw [List.getD_append _ _ _ _ (by rw [post_order_length]; omega)]
      exact subtree_size_le c k hlt
    · rw [List.getD_append_right _ _ _ _ (by rw [post_order_length]; omega)]
      rw [post_order_length, sizeF] at *
      have := subtree_size_le_forest cs (k - c.size) (by omega)
      omega
end

/-! raw left-most-leaf function on the root node -/

theorem lldAt_new_eq (r : TreeNode) (k : Nat) (hk : k < r.size) :
    lldAt (Tree.new r) k = lldA r k := by
  unfold lldAt Tree.new lldA
  rw [lld_getD r.post_order k (by rw [post_order_length]; omega)]
  rw [TreeNode.size_eq_length]

theorem lldA_le (r : TreeNode) (k : Nat) : lldA r k ≤ k := by
  unfold lldA
  omega

theorem block_fits : ∀ (cs : List TreeNode) (m : Nat) (c : TreeNode),
    cs[m]? = some c → offsetOf cs m + c.size ≤ sizeF cs := by
  intro cs
  induction cs with
  | nil => intro m c hm; simp at hm
  | cons c0 cs ih =>
    intro m c hm
    cases m with
    | zero =>
      simp at hm
      subst hm
      rw [offsetOf_zero, sizeF]
      omega
    | succ m =>
      simp at hm
      rw [offsetOf_succ, sizeF]
      have := ih m c hm
      omega

theorem lldF_block (cs : List TreeNode) (m : Nat) (c : TreeNode)
    (hm : cs[m]? = some c) (j : Nat) (hj : j < c.size) :
    lldF cs (offsetOf cs m + j) = offsetOf cs m + lldA c j := by
  unfold lldF lldA
  rw [blockGet cs m c hm j hj]
  have hs := subtree_size_le c j hj
  have hp := TreeNode.size_pos (c.post_order.getD j defaultNode)
  omega

theorem lldA_node_lt (l : String) (cs : List TreeNode) (k : Nat) (hk : k < sizeF cs) :
    lldA (.node l cs) k = lldF cs k := by
  unfold lldA lldF
  rw [TreeNode.post_order, List.getD_append _ _ _ _ (by rw [postOrderF_length]; omega)]

theorem lldA_root (l : String) (cs : List TreeNode) :
    lldA (.node l cs) (sizeF cs) = 0 := by
  unfold lldA
  rw [TreeNode.post_order, List.getD_append_right _ _ _ _ (by rw [postOrderF_length])]
  rw [postOrderF_length, Nat.sub_self, List.getD_cons_zero, TreeNode.size]
  omega

theorem child_size_lt (l : String) (cs : List TreeNode) (m : Nat) (c : TreeNode)
    (hm : cs[m]? = some c) : c.size < (TreeNode.node l cs).size := by
  have h1 := block_fits cs m c hm
  rw [TreeNode.size]
  omega

/-! window bound: inside the window of the subtree at `x`, every node's
    left-most leaf is at least the window start -/

theorem lld_window_bound : ∀ (n : Nat) (r : TreeNode), r.size ≤ n →
    ∀ x a, x < r.size → lldA r x ≤ a → a ≤ x → lldA r x ≤ lldA r a := by
  intro n
  induction n with
  | zero =>
    intro r hr
    have := TreeNode.size_pos r
    omega
  | succ n ih =>
    intro r hr x a hx hla hax
    cases r with
    | node l cs =>
      rcases Nat.lt_or_ge x (sizeF cs) with hlt | hge
      · obtain ⟨m, c, hm, ho1, ho2⟩ := blockCover cs x hlt
        have hlx : lldA (.node l cs) x =
            offsetOf cs m + lldA c (x - offsetOf cs m) := by
          rw [lldA_node_lt l cs x hlt]
          have h1 := lldF_block cs m c hm (x - offsetOf cs m) (by omega)
          rw [show offsetOf cs m + (x - offsetOf cs m) = x from by omega] at h1
          exact h1
        have hao : offsetOf cs m ≤ a := by
          have := lldA_le c (x - offsetOf cs m)
          omega
        have halt : a < sizeF cs := by omega
        have hla2 : lldA (.node l cs) a =
            offsetOf cs m + lldA c (a - offsetOf cs m) := by
          rw [lldA_node_lt l cs a halt]
          have h1 := lldF_block cs m c hm (a - offsetOf cs m) (by omega)
          rw [show offsetOf cs m + (a - offsetOf cs m) = a from by omega] at h1
          exact h1
        rw [hlx, hla2]
        have hrec := ih c (by have h2 := child_size_lt l cs m c hm; omega)
          (x - offsetOf cs m) (a - offsetOf cs m) (by omega) (by omega) (by omega)
        omega
      · have hxe : x = sizeF cs := by
          rw [TreeNode.size] at hx
          omega
        subst hxe
        rw [lldA_root]
        omega

/-! left-most-child chain (the spec's second formulation of lld) -/

theorem followChain_children : ∀ r : TreeNode, (followChain r).children = []
  | .node _ [] => rfl
  | .node l (c :: cs) => by
    rw [followChain]
    exact followChain_children c

theorem post_order_head : ∀ r : TreeNode,
    r.post_order.getD 0 defaultNode = followChain r
  | .node _ [] => rfl
  | .node l (c :: cs) => by
    rw [TreeNode.post_order, postOrderF, followChain]
    rw [List.append_assoc]
    rw [List.getD_append _ _ _ _ (by rw [post_order_length]; have := TreeNode.size_pos c; omega)]
    exact post_order_head c

theorem subtree_at_lld : ∀ (n : Nat) (r : TreeNode), r.size ≤ n →
    ∀ k, k < r.size →
    r.post_order.getD (lldA r k) defaultNode =
      followChain (r.post_order.getD k defaultNode) := by
  intro n
  induction n with
  | zero =>
    intro r hr
    have := TreeNode.size_pos r
    omega
  | succ n ih =>
    intro r hr k hk
    cases r with
    | node l cs =>
      rcases Nat.lt_or_ge k (sizeF cs) with hlt | hge
      · obtain ⟨m, c, hm, ho1, ho2⟩ := blockCover cs k hlt
        have hnode : (TreeNode.node l cs).post_order.getD k defaultNode =
            c.post_order.getD (k - offsetOf cs m) defaultNode := by
          rw [TreeNode.post_order,
            List.getD_append _ _ _ _ (by rw [postOrderF_length]; omega)]
          have h1 := blockGet cs m c hm (k - offsetOf cs m) (by omega)
          rw [show offsetOf cs m + (k - offsetOf cs m) = k from by omega] at h1
          exact h1
        have hlk : lldA (TreeNode.node l cs) k =
            offsetOf cs m + lldA c (k - offsetOf cs m) := by
          rw [lldA_node_lt l cs k hlt]
          have h1 := lldF_block cs m c hm (k - offsetOf cs m) (by omega)
          rw [show offsetOf cs m + (k - offsetOf cs m) = k from by omega] at h1
          exact h1
        have hlds : lldA c (k - offsetOf cs m) < c.size := by
          have h1 := lldA_le c (k - offsetOf cs m)
          omega
        have hnode2 : (TreeNode.node l cs).post_order.getD
            (lldA (TreeNode.node l cs) k) defaultNode =
            c.post_order.getD (lldA c (k - offsetOf cs m)) defaultNode := by
          rw [hlk, TreeNode.post_order,
            List.getD_append _ _ _ _ (by
              rw [postOrderF_length]
              have := block_fits cs m c hm
              omega)]
          exact blockGet cs m c hm _ hlds
        rw [hnode, hnode2]
        exact ih c (by have h2 := child_size_lt l cs m c hm; omega)
          (k - offsetOf cs m) (by omega)
      · have hke : k = sizeF cs := by
          rw [TreeNode.size] at hk
          omega
        subst hke
        have hroot : (TreeNode.node l cs).post_order.getD (sizeF cs) defaultNode =
            TreeNode.node l cs := by
          rw [TreeNode.post_order,
            List.getD_append_right _ _ _ _ (by rw [postOrderF_length])]
          rw [postOrderF_length, Nat.sub_self, List.getD_cons_zero]
        rw [show lldA (TreeNode.node l cs) (sizeF cs) = 0 from lldA_root l cs]
        rw [hroot]
        exact post_order_head (TreeNode.node l cs)

theorem lldA_eq_self_iff_leaf (r : TreeNode) (k : Nat) (hk : k < r.size) :
    lldA r k = k ↔ (r.post_order.getD k defaultNode).children = [] := by
  unfold lldA
  have hs := subtree_size_le r k hk
  have hp := TreeNode.size_pos (r.post_order.getD k defaultNode)
  constructor
  · intro he
    have hsz : (r.post_order.getD k defaultNode).size = 1 := by omega
    cases hnode : r.post_order.getD k defaultNode with
    | node l cs =>
      rw [hnode] at hsz
      rw [TreeNode.children]
      cases cs with
      | nil => rfl
      | cons c cs2 =>
        exfalso
        rw [TreeNode.size, sizeF] at hsz
        have := TreeNode.size_pos c
        omega
  · intro he
    have hsz : (r.post_order.getD k defaultNode).size = 1 := by
      cases hnode : r.post_order.getD k defaultNode with
      | node l cs =>
        rw [hnode] at he
        rw [TreeNode.children] at he
        subst he
        rw [TreeNode.size, sizeF]
    omega

/-! shifting key-root collections -/

mutual
theorem krNode_shift : ∀ (t : TreeNode) (s : Nat),
    krNode t s = (krNode t 0).map (· + s)
  | .node l cs, s => by
    rw [krNode, krNode]
    rw [krChildren_shift cs s true]
theorem krChildren_shift : ∀ (cs : List TreeNode) (s : Nat) (g : Bool),
    krChildren cs s g = (krChildren cs 0 g).map (· + s)
  | [], s, g => by rw [krChildren, krChildren]; rfl
  | c :: cs, s, g => by
    rw [krChildren, krChildren]
    simp only [Nat.zero_add]
    rw [krNode_shift c s]
    rw [krChildren_shift cs (s + c.size) false]
    rw [krChildren_shift cs c.size false]
    rw [List.map_append, List.map_append, List.map_map]
    have hp := TreeNode.size_pos c
    congr 1
    · congr 1
      cases g with
      | true => rfl
      | false =>
        rw [if_neg (by simp), if_neg (by simp)]
        simp only [List.map_cons, List.map_nil]
        congr 1
        omega
    · apply List.map_congr_left
      intro a _
      show a + (s + c.size) = a + c.size + s
      omega
end

theorem mem_krChildren_head (c0 : TreeNode) (cs : List TreeNode) (g : Bool)
    (k : Nat) (hk : k ∈ krNode c0 0) : k ∈ krChildren (c0 :: cs) 0 g := by
  rw [krChildren]
  rw [List.mem_append, List.mem_append]
  left
  right
  exact hk

theorem mem_krChildren_tail (c0 : TreeNode) (cs : List TreeNode) (g : Bool)
    (k : Nat) (hk : k ∈ krChildren cs 0 false) :
    (c0.size + k) ∈ krChildren (c0 :: cs) 0 g := by
  rw [krChildren]
  rw [List.mem_append, List.mem_append]
  right
  simp only [Nat.zero_add]
  rw [krChildren_shift cs c0.size false, List.mem_map]
  exact ⟨k, hk, by omega⟩

theorem mem_krChildren_of_child : ∀ (cs : List TreeNode) (m : Nat) (c : TreeNode),
    cs[m]? = some c → ∀ (g : Bool) (k : Nat), k ∈ krNode c 0 →
    (offsetOf cs m + k) ∈ krChildren cs 0 g := by
  intro cs
  induction cs with
  | nil => intro m c hm; simp at hm
  | cons c0 cs ih =>
    intro m c hm g k hk
    cases m with
    | zero =>
      simp at hm
      subst hm
      rw [offsetOf_zero, Nat.zero_add]
      exact mem_krChildren_head c0 cs g k hk
    | succ m =>
      simp at hm
      rw [offsetOf_succ, Nat.add_assoc]
      exact mem_krChildren_tail c0 cs g _ (ih m c hm false k hk)

theorem mem_krChildren_blockroot : ∀ (cs : List TreeNode) (m : Nat) (c : TreeNode),
    cs[m]? = some c → 1 ≤ m → ∀ (g : Bool),
    (offsetOf cs m + c.size - 1) ∈ krChildren cs 0 g := by
  intro cs
  induction cs with
  | nil => intro m c hm; simp at hm
  | cons c0 cs ih =>
    intro m c hm hm1 g
    cases m with
    | zero => omega
    | succ m =>
      simp at hm
      cases m with
      | zero =>
        cases cs with
        | nil => simp at hm
        | cons c1 cs2 =>
          have hc : c1 = c := by simpa using hm
          subst hc
          have hcp := TreeNode.size_pos c1
          have hh : (c1.size - 1) ∈ krChildren (c1 :: cs2) 0 false := by
            rw [krChildren]
            rw [List.mem_append, List.mem_append]
            left
            left
            simp
          have hmem := mem_krChildren_tail c0 (c1 :: cs2) g (c1.size - 1) hh
          rw [offsetOf_succ, offsetOf_zero]
          have harith : c0.size + 0 + c1.size - 1 = c0.size + (c1.size - 1) := by omega
          rw [harith]
          exact hmem
      | succ m =>
        have hh := ih (m + 1) c hm (by omega) false
        have hcp := TreeNode.size_pos c
        have hmem := mem_krChildren_tail c0 cs g _ hh
        rw [offsetOf_succ]
        have harith : c0.size + offsetOf cs (m + 1) + c.size - 1 =
            c0.size + (offsetOf cs (m + 1) + c.size - 1) := by omega
        rw [harith]
        exact hmem

theorem lldA_root_any (c : TreeNode) : lldA c (c.size - 1) = 0 := by
  cases c with
  | node l cs =>
    have : (TreeNode.node l cs).size - 1 = sizeF cs := by
      rw [TreeNode.size]
      omega
    rw [this]
    exact lldA_root l cs

/-! every node has a covering key root: an index `x ≥ a` with the same
    left-most leaf, which is the tree root or a non-first child -/

theorem covering_keyroot : ∀ (n : Nat) (r : TreeNode), r.size ≤ n →
    ∀ a, a < r.size → ∃ x, a ≤ x ∧ x < r.size ∧ lldA r x = lldA r a ∧
      (x = r.size - 1 ∨ x ∈ krNode r 0) := by
  intro n
  induction n with
  | zero =>
    intro r hr
    have := TreeNode.size_pos r
    omega
  | succ n ih =>
    intro r hr a ha
    cases r with
    | node l cs =>
      rcases Nat.lt_or_ge a (sizeF cs) with hlt | hge
      · obtain ⟨m, c, hm, ho1, ho2⟩ := blockCover cs a hlt
        have hblock : ∀ j, j < c.size →
            lldA (TreeNode.node l cs) (offsetOf cs m + j) = offsetOf cs m + lldA c j := by
          intro j hj
          rw [lldA_node_lt l cs _ (by have := block_fits cs m c hm; omega)]
          exact lldF_block cs m c hm j hj
        have hla : lldA (TreeNode.node l cs) a = offsetOf cs m + lldA c (a - offsetOf cs m) := by
          have h1 := hblock (a - offsetOf cs m) (by omega)
          rw [show offsetOf cs m + (a - offsetOf cs m) = a from by omega] at h1
          exact h1
        obtain ⟨xc, hxc1, hxc2, hxc3, hxc4⟩ :=
          ih c (by have := child_size_lt l cs m c hm; omega) (a - offsetOf cs m) (by omega)
        rcases hxc4 with hroot | hmem
        · rcases Nat.eq_zero_or_pos m with hm0 | hm1
          · -- first child: the chain continues to the tree root
            subst hm0
            have ho0 : offsetOf cs 0 = 0 := offsetOf_zero cs
            refine ⟨(TreeNode.node l cs).size - 1, by rw [TreeNode.size]; omega,
              by have := TreeNode.size_pos (TreeNode.node l cs); omega, ?_, Or.inl rfl⟩
            rw [lldA_root_any, hla, ← hxc3, hroot, lldA_root_any c]
            omega
          · -- non-first child: its root is a key root
            refine ⟨offsetOf cs m + c.size - 1, by omega,
              by rw [TreeNode.size]; have := block_fits cs m c hm; omega, ?_, Or.inr ?_⟩
            · have hc1 := TreeNode.size_pos c
              have h1 := hblock (c.size - 1) (by omega)
              rw [show offsetOf cs m + c.size - 1 = offsetOf cs m + (c.size - 1) from by omega]
              rw [h1, lldA_root_any c, hla, ← hxc3, hroot, lldA_root_any c]
            · rw [krNode]
              exact mem_krChildren_blockroot cs m c hm hm1 true
        · refine ⟨offsetOf cs m + xc, by omega,
            by rw [TreeNode.size]; have := block_fits cs m c hm; omega, ?_, Or.inr ?_⟩
          · rw [hblock xc hxc2, hla, hxc3]
          · rw [krNode]
            exact mem_krChildren_of_child cs m c hm true xc hmem
      · have hae : a = sizeF cs := by
          rw [TreeNode.size] at ha
          omega
        subst hae
        exact ⟨sizeF cs, Nat.le_refl _, by rw [TreeNode.size]; omega, rfl,
          Or.inl (by rw [TreeNode.size]; omega)⟩

/-! lifted to the `Tree.new` index -/

theorem new_post_order_len (r : TreeNode) :
    (Tree.new r).post_order.length = r.size := post_order_length r

theorem covering_keyroot_new (r : TreeNode) (a : Nat)
    (ha : a < (Tree.new r).post_order.length) :
    ∃ x ∈ (Tree.new r).key_roots, a ≤ x ∧
      lldAt (Tree.new r) x = lldAt (Tree.new r) a := by
  have ha' : a < r.size := by
    have h := new_post_order_len r
    omega
  obtain ⟨x, hx1, hx2, hx3, hx4⟩ := covering_keyroot r.size r (Nat.le_refl _) a ha'
  refine ⟨x, ?_, hx1, ?_⟩
  · show x ∈ keyroots r
    unfold keyroots
    rw [List.mem_insertionSort, List.mem_cons]
    rcases hx4 with h | h
    · left; exact h
    · right; exact h
  · rw [lldAt_new_eq r x hx2, lldAt_new_eq r a ha', hx3]

theorem lld_window_bound_new (r : TreeNode) (x a : Nat)
    (hx : x < (Tree.new r).post_order.length)
    (h1 : lldAt (Tree.new r) x ≤ a) (h2 : a ≤ x) :
    lldAt (Tree.new r) x ≤ lldAt (Tree.new r) a := by
  have hx' : x < r.size := by
    have h := new_post_order_len r
    omega
  have ha' : a < r.size := by omega
  rw [lldAt_new_eq r x hx'] at h1 ⊢
  rw [lldAt_new_eq r a ha']
  exact lld_window_bound r.size r (Nat.le_refl _) x a hx' h1 h2

/-! the C7 core: every td cell read in the forest branch of a key-root pair is
    written by a lexicographically earlier key-root pair -/

theorem read_resolved_core (r1 r2 : TreeNode) (x y a b : Nat)
    (hx : x ∈ (Tree.new r1).key_roots) (hy : y ∈ (Tree.new r2).key_roots)
    (hread : forestRead (Tree.new r1) (Tree.new r2) x y a b) :
    ∃ x' ∈ (Tree.new r1).key_roots, ∃ y' ∈ (Tree.new r2).key_roots,
      (x' < x ∨ (x' = x ∧ y' < y)) ∧
      writesCell (Tree.new r1) (Tree.new r2) x' y' a b := by
  obtain ⟨hra1, hra2, hrb1, hrb2, hrneg⟩ := hread
  have hxn : x < (Tree.new r1).post_order.length := keyroots_new_mem_lt r1 x hx
  have hyn : y < (Tree.new r2).post_order.length := keyroots_new_mem_lt r2 y hy
  have han : a < (Tree.new r1).post_order.length := by omega
  have hbn : b < (Tree.new r2).post_order.length := by omega
  obtain ⟨x', hx'mem, hx'ge, hx'lld⟩ := covering_keyroot_new r1 a han
  obtain ⟨y', hy'mem, hy'ge, hy'lld⟩ := covering_keyroot_new r2 b hbn
  by_cases hcase : lldAt (Tree.new r1) a = lldAt (Tree.new r1) x
  · -- the first coordinate is resolved through x itself; the second must be
    -- strictly earlier
    have hbneq : lldAt (Tree.new r2) b ≠ lldAt (Tree.new r2) y :=
      fun h => hrneg ⟨hcase, h⟩
    have hy'lt : y' < y := by
      rcases Nat.lt_trichotomy y' y with h | h | h
      · exact h
      · exfalso
        apply hbneq
        rw [← h, hy'lld]
      · exfalso
        have hw1 : lldAt (Tree.new r2) y' ≤ lldAt (Tree.new r2) y := by
          apply lld_window_bound_new r2 y' y (keyroots_new_mem_lt r2 y' hy'mem)
          · rw [hy'lld]
            have := lldAt_new_le r2 b
            omega
          · omega
        have hw2 : lldAt (Tree.new r2) y ≤ lldAt (Tree.new r2) b :=
          lld_window_bound_new r2 y b hyn hrb1 hrb2
        apply hbneq
        rw [hy'lld] at hw1
        omega
    refine ⟨x, hx, y', hy'mem, Or.inr ⟨rfl, hy'lt⟩, ?_⟩
    have hlb := lldAt_new_le r2 b
    exact ⟨hra1, hra2, by rw [hy'lld]; omega, hy'ge, hcase.symm ▸ rfl, hy'lld.symm⟩
  · -- the first coordinate's covering key root is strictly smaller than x
    have hx'lt : x' < x := by
      rcases Nat.lt_trichotomy x' x with h | h | h
      · exact h
      · exfalso
        apply hcase
        rw [← h, hx'lld]
      · exfalso
        have hw1 : lldAt (Tree.new r1) x' ≤ lldAt (Tree.new r1) x := by
          apply lld_window_bound_new r1 x' x (keyroots_new_mem_lt r1 x' hx'mem)
          · rw [hx'lld]
            have := lldAt_new_le r1 a
            omega
          · omega
        have hw2 : lldAt (Tree.new r1) x ≤ lldAt (Tree.new r1) a :=
          lld_window_bound_new r1 x a hxn hra1 hra2
        apply hcase
        rw [hx'lld] at hw1
        omega
    refine ⟨x', hx'mem, y', hy'mem, Or.inl hx'lt, ?_⟩
    have hla := lldAt_new_le r1 a
    have hlb := lldAt_new_le r2 b
    exact ⟨by rw [hx'lld]; omega, hx'ge, by rw [hy'lld]; omega, hy'ge,
      hx'lld.symm, hy'lld.symm⟩

/-! key-root lists contain no duplicates -/

theorem krNode_lt_pred : ∀ (c : TreeNode) (k : Nat), k ∈ krNode c 0 → k + 1 < c.size := by
  intro c k hk
  cases c with
  | node l cs =>
    rw [krNode] at hk
    have := krChildren_bound cs 0 true k hk
    rw [TreeNode.size]
    omega

mutual
theorem krNode_nodup : ∀ c : TreeNode, (krNode c 0).Nodup
  | .node l cs => by
    rw [krNode]
    exact krChildren_nodup cs true
theorem krChildren_nodup : ∀ (cs : List TreeNode) (g : Bool), (krChildren cs 0 g).Nodup
  | [], g => by rw [krChildren]; exact List.nodup_nil
  | c :: cs, g => by
    rw [krChildren]
    simp only [Nat.zero_add]
    rw [krChildren_shift cs c.size false]
    have h1 : (krNode c 0).Nodup := krNode_nodup c
    have h2 : ((krChildren cs 0 false).map (· + c.size)).Nodup := by
      refine List.Nodup.map ?_ (krChildren_nodup cs false)
      intro u v huv
      have huv2 : u + c.size = v + c.size := huv
      omega
    have hd23 : ∀ k ∈ krNode c 0, ∀ k' ∈ (krChildren cs 0 false).map (· + c.size), k ≠ k' := by
      intro k hk k' hk'
      have hb1 := krNode_lt_pred c k hk
      rw [List.mem_map] at hk'
      obtain ⟨k0, _, hk0⟩ := hk'
      omega
    have h23 : ((krNode c 0) ++ (krChildren cs 0 false).map (· + c.size)).Nodup := by
      rw [List.nodup_append]
      exact ⟨h1, h2, fun a ha hb => hd23 a ha a hb rfl⟩
    cases g with
    | true =>
      simpa using h23
    | false =>
      rw [if_neg (by simp)]
      refine List.nodup_cons.mpr ⟨?_, h23⟩
      intro hmem
      simp only [List.append_eq, List.nil_append, List.mem_append] at hmem
      have hp := TreeNode.size_pos c
      rcases hmem with hm | hm
      · have := krNode_lt_pred c _ hm
        omega
      · rw [List.mem_map] at hm
        obtain ⟨k0, _, hk0⟩ := hm
        omega
end

theorem keyroots_nodup (r : TreeNode) : (keyroots r).Nodup := by
  unfold keyroots
  rw [List.Perm.nodup_iff (List.perm_insertionSort _ _)]
  rw [List.nodup_cons]
  refine ⟨?_, krNode_nodup r⟩
  intro hmem
  have h1 := krNode_lt_pred r _ hmem
  have h2 := TreeNode.size_pos r
  omega

/-! flags: which post-order indices have a preceding sibling -/

mutual
theorem precededFlagsT_length : ∀ (r : TreeNode) (b : Bool),
    (precededFlagsT r b).length = r.size
  | .node l cs, b => by
    rw [precededFlagsT, List.length_append, precededFlagsF_length cs true,
      TreeNode.size]
    rfl
theorem precededFlagsF_length : ∀ (cs : List TreeNode) (f : Bool),
    (precededFlagsF cs f).length = sizeF cs
  | [], f => rfl
  | c :: cs, f => by
    rw [precededFlagsF, List.length_append, precededFlagsT_length c,
      precededFlagsF_length cs false, sizeF]
end

mutual
theorem precededFlagsT_spec : ∀ (r : TreeNode) (b : Bool) (k : Nat), k < r.size →
    ((precededFlagsT r b).getD k false = true ↔
      (k ∈ krNode r 0 ∨ (k = r.size - 1 ∧ b = true)))
  | .node l cs, b, k => by
    intro hk
    rw [precededFlagsT, krNode]
    rcases Nat.lt_or_ge k (sizeF cs) with hlt | hge
    · rw [List.getD_append _ _ _ _ (by rw [precededFlagsF_length]; omega)]
      rw [precededFlagsF_spec cs true k hlt]
      constructor
      · intro h; exact Or.inl h
      · intro h
        rcases h with h | h
        · exact h
        · exfalso
          rw [TreeNode.size] at h
          omega
    · have hke : k = sizeF cs := by
        rw [TreeNode.size] at hk
        omega
      subst hke
      rw [List.getD_append_right _ _ _ _ (by rw [precededFlagsF_length])]
      rw [precededFlagsF_length, Nat.sub_self, List.getD_cons_zero]
      constructor
      · intro h
        right
        rw [TreeNode.size]
        exact ⟨by omega, h⟩
      · intro h
        rcases h with h | h
        · exfalso
          have := krChildren_bound cs 0 true _ h
          omega
        · exact h.2
theorem precededFlagsF_spec : ∀ (cs : List TreeNode) (f : Bool) (k : Nat),
    k < sizeF cs →
    ((precededFlagsF cs f).getD k false = true ↔ k ∈ krChildren cs 0 f)
  | [], f, k => by intro hk; rw [sizeF] at hk; omega
  | c :: cs, f, k => by
    intro hk
    rw [precededFlagsF, krChildren]
    simp only [Nat.zero_add]
    have hcp := TreeNode.size_pos c
    rcases Nat.lt_or_ge k c.size with hlt | hge
    · rw [List.getD_append _ _ _ _ (by rw [precededFlagsT_length]; omega)]
      rw [precededFlagsT_spec c (!f) k hlt]
      rw [List.mem_append, List.mem_append]
      constructor
      · intro h
        rcases h with h | h
        · left; right; exact h
        · left; left
          cases f with
          | true => simp at h
          | false =>
            rw [if_neg (by simp)]
            simp
            omega
      · intro h
        rcases h with (h | h) | h
        · right
          cases f with
          | true => simp at h
          | false =>
            rw [if_neg (by simp)] at h
            simp at h
            constructor
            · omega
            · rfl
        · left; exact h
        · exfalso
          have := krChildren_bound cs c.size false _ h
          omega
    · rw [List.getD_append_right _ _ _ _ (by rw [precededFlagsT_length]; omega)]
      rw [precededFlagsT_length]
      rw [sizeF] at hk
      rw [precededFlagsF_spec cs false (k - c.size) (by omega)]
      rw [List.mem_append, List.mem_append]
      constructor
      · intro h
        right
        rw [krChildren_shift cs c.size false, List.mem_map]
        exact ⟨k - c.size, h, by omega⟩
      · intro h
        rcases h with (h | h) | h
        · exfalso
          cases f with
          | true => simp at h
          | false =>
            rw [if_neg (by simp)] at h
            simp at h
            omega
        · exfalso
          have := krNode_bound c 0 _ h
          omega
        · rw [krChildren_shift cs c.size false, List.mem_map] at h
          obtain ⟨k0, hk0, hk0e⟩ := h
          have : k0 = k - c.size := by omega
          subst this
          exact hk0
end

/-! ### Claim C5: characterization of `key_roots` -/

/-- C5: for every (non-empty) tree, `key_roots` is non-empty, contains the
root's index, is ascending and duplicate-free, and contains an index `k` iff
the node at `k` is the root or has a preceding sibling. -/
theorem key_roots_characterization (r : TreeNode) :
    (Tree.new r).key_roots ≠ [] ∧
    ((Tree.new r).post_order.length - 1) ∈ (Tree.new r).key_roots ∧
    List.Sorted (· ≤ ·) (Tree.new r).key_roots ∧
    (Tree.new r).key_roots.Nodup ∧
    (∀ k, k < (Tree.new r).post_order.length →
      (k ∈ (Tree.new r).key_roots ↔
        (k = (Tree.new r).post_order.length - 1 ∨
          (precededFlagsT r false).getD k false = true))) := by
  have hlen := new_post_order_len r
  have hsz := TreeNode.size_pos r
  refine ⟨?_, ?_, ?_, keyroots_nodup r, ?_⟩
  · show keyroots r ≠ []
    apply List.ne_nil_of_length_pos
    unfold keyroots
    rw [List.length_insertionSort]
    simp
  · show (Tree.new r).post_order.length - 1 ∈ keyroots r
    unfold keyroots
    rw [List.mem_insertionSort, hlen]
    exact List.mem_cons_self _ _
  · show List.Sorted (· ≤ ·) (keyroots r)
    exact List.sorted_insertionSort _ _
  · intro k hk
    have hk' : k < r.size := by omega
    show k ∈ keyroots r ↔ _
    unfold keyroots
    rw [List.mem_insertionSort, List.mem_cons, hlen]
    rw [precededFlagsT_spec r false k hk']
    constructor
    · intro h
      rcases h with h | h
      · left; exact h
      · right; left; exact h
    · intro h
      rcases h with h | h | h
      · left; exact h
      · right; exact h
      · exfalso
        simp at h
  
/-! ### Claim C6: the arithmetic lld formula follows the left-most-child chain.
`chainLeafIdxT` records, for every node occurrence, the post-order INDEX of
the leaf reached by repeatedly following the first child; the lemmas below
show the arithmetic table agrees with it entry by entry. -/

mutual
theorem chainLeafIdxT_length : ∀ (t : TreeNode) (s : Nat),
    (chainLeafIdxT t s).length = t.size
  | .node l cs, s => by
    rw [chainLeafIdxT, List.length_append, chainLeafIdxF_length cs s, TreeNode.size,
      List.length_singleton]
theorem chainLeafIdxF_length : ∀ (cs : List TreeNode) (s : Nat),
    (chainLeafIdxF cs s).length = sizeF cs
  | [], _ => rfl
  | c :: cs, s => by
    rw [chainLeafIdxF, List.length_append, chainLeafIdxT_length c s,
      chainLeafIdxF_length cs (s + c.size), sizeF]
end

theorem getLast_getD (l : List Nat) : l.getLast?.getD 0 = l.getD (l.length - 1) 0 := by
  rw [List.getLast?_eq_getElem?, List.getD_eq_getD_get?, List.get?_eq_getElem?]

theorem lldF_cons_lt (c : TreeNode) (cs : List TreeNode) (k : Nat) (hk : k < c.size) :
    lldF (c :: cs) k = lldA c k := by
  unfold lldF lldA
  rw [postOrderF, List.getD_append _ _ _ _ (by rw [post_order_length]; omega)]

theorem lldF_cons_ge (c : TreeNode) (cs : List TreeNode) (j : Nat) (hj : j < sizeF cs) :
    lldF (c :: cs) (c.size + j) = c.size + lldF cs j := by
  unfold lldF
  rw [postOrderF, List.getD_append_right _ _ _ _ (by rw [post_order_length]; omega)]
  rw [post_order_length]
  have harith : c.size + j - c.size = j := by omega
  rw [harith]
  have hs := subtree_size_le_forest cs j hj
  have hp := TreeNode.size_pos ((postOrderF cs).getD j defaultNode)
  omega

mutual
theorem chainLeafIdxT_spec : ∀ (t : TreeNode) (s k : Nat), k < t.size →
    (chainLeafIdxT t s).getD k 0 = s + lldA t k
  | .node l [], s, k => by
    intro hk
    have hk0 : k = 0 := by
      rw [TreeNode.size, sizeF] at hk
      omega
    subst hk0
    rw [chainLeafIdxT, chainLeafIdxF, chainRootIdx, List.nil_append, List.getD_cons_zero]
    have h0 : lldA (.node l []) 0 = 0 := by
      have h := lldA_root l []
      rw [sizeF] at h
      exact h
    rw [h0]
    rfl
  | .node l (c :: cs), s, k => by
    intro hk
    rw [chainLeafIdxT]
    rcases Nat.lt_or_ge k (sizeF (c :: cs)) with hlt | hge
    · rw [List.getD_append _ _ _ _ (by rw [chainLeafIdxF_length]; omega)]
      rw [chainLeafIdxF_spec (c :: cs) s k hlt, lldA_node_lt l (c :: cs) k hlt]
    · have hke : k = sizeF (c :: cs) := by
        rw [TreeNode.size] at hk
        omega
      subst hke
      rw [List.getD_append_right _ _ _ _ (by rw [chainLeafIdxF_length])]
      rw [chainLeafIdxF_length, Nat.sub_self, List.getD_cons_zero, lldA_root l (c :: cs)]
      rw [chainRootIdx, getLast_getD, chainLeafIdxT_length c s]
      have hcp := TreeNode.size_pos c
      rw [chainLeafIdxT_spec c s (c.size - 1) (by omega), lldA_root_any c]
theorem chainLeafIdxF_spec : ∀ (cs : List TreeNode) (s k : Nat), k < sizeF cs →
    (chainLeafIdxF cs s).getD k 0 = s + lldF cs k
  | [], s, k => by
    intro hk
    rw [sizeF] at hk
    omega
  | c :: cs, s, k => by
    intro hk
    rw [chainLeafIdxF]
    rcases Nat.lt_or_ge k c.size with hlt | hge
    · rw [List.getD_append _ _ _ _ (by rw [chainLeafIdxT_length]; omega)]
      rw [chainLeafIdxT_spec c s k hlt, lldF_cons_lt c cs k hlt]
    · rw [List.getD_append_right _ _ _ _ (by rw [chainLeafIdxT_length]; omega)]
      rw [chainLeafIdxT_length]
      rw [sizeF] at hk
      rw [chainLeafIdxF_spec cs (s + c.size) (k - c.size) (by omega)]
      have h3 := lldF_cons_ge c cs (k - c.size) (by omega)
      have hke : c.size + (k - c.size) = k := by omega
      rw [hke] at h3
      rw [h3]
      omega
end

/-- The arithmetic formula agrees with the chain-following formulation:
`lldA r i` is literally the post-order index recorded by the chain
traversal rooted at offset 0. -/
theorem lldA_eq_chainLeafIdx (r : TreeNode) (i : Nat) (hi : i < r.size) :
    lldA r i = (chainLeafIdxT r 0).getD i 0 := by
  rw [chainLeafIdxT_spec r 0 i hi, Nat.zero_add]

/-- C6: for every tree and in-range post-order index `i`, the value
`left_most_leaf_descendant[i]` (computed as `i - (subtree size - 1)`) equals
the post-order index of the leaf reached by repeatedly following the first
(left-most) child from node `i` (recorded by the independent chain traversal
`chainLeafIdxT`); the node found at that index is exactly `followChain` of
node `i`; and `left_most_leaf_descendant[i] ≤ i`, with equality iff node `i`
is a leaf. -/
theorem lld_equals_chain_leaf (r : TreeNode) (i : Nat)
    (hi : i < (Tree.new r).post_order.length) :
    lldAt (Tree.new r) i = (chainLeafIdxT r 0).getD i 0 ∧
    nodeAt (Tree.new r) (lldAt (Tree.new r) i) =
      followChain (nodeAt (Tree.new r) i) ∧
    lldAt (Tree.new r) i ≤ i ∧
    (lldAt (Tree.new r) i = i ↔ (nodeAt (Tree.new r) i).children = []) := by
  have hi' : i < r.size := by
    have := new_post_order_len r
    omega
  refine ⟨?_, ?_, lldAt_new_le r i, ?_⟩
  · rw [lldAt_new_eq r i hi']
    exact lldA_eq_chainLeafIdx r i hi'
  · show r.post_order.getD (lldAt (Tree.new r) i) defaultNode =
      followChain (r.post_order.getD i defaultNode)
    rw [lldAt_new_eq r i hi']
    exact subtree_at_lld r.size r (Nat.le_refl _) i hi'
  · have h2 := lldA_eq_self_iff_leaf r i hi'
    rw [lldAt_new_eq r i hi']
    exact h2

/-! ### Claim C7: forest-branch reads hit already-written td cells.
Both key-root loops run over the stored `key_roots` vectors in list order;
the lists are proved ascending-sorted, so processing order is value order,
and a pair `(x', y')` with `x' < x`, or `x' = x` and `y' < y`, is processed
strictly before `(x, y)`.  The branch taken at a cell depends only on the
`left_most_leaf_descendant` tables, so reads and writes are structural
predicates (`forestRead`, `writesCell`). -/

/-- C7: every `td` cell read by the forest branch during key-root pair
`(x, y)` is written by the tree branch of a lexicographically earlier
key-root pair. -/
theorem forest_branch_reads_already_written (r1 r2 : TreeNode) :
    List.Sorted (· ≤ ·) (Tree.new r1).key_roots ∧
    List.Sorted (· ≤ ·) (Tree.new r2).key_roots ∧
    (∀ x ∈ (Tree.new r1).key_roots, ∀ y ∈ (Tree.new r2).key_roots,
      ∀ a b, forestRead (Tree.new r1) (Tree.new r2) x y a b →
      ∃ x' ∈ (Tree.new r1).key_roots, ∃ y' ∈ (Tree.new r2).key_roots,
        (x' < x ∨ (x' = x ∧ y' < y)) ∧
        writesCell (Tree.new r1) (Tree.new r2) x' y' a b) := by
  refine ⟨List.sorted_insertionSort _ _, List.sorted_insertionSort _ _, ?_⟩
  intro x hx y hy a b hread
  exact read_resolved_core r1 r2 x y a b hx hy hread

theorem lld_equals_chain_leaf_witness :
    3 < (Tree.new fixtureTree).post_order.length ∧
    (lldAt (Tree.new fixtureTree) 3 = (chainLeafIdxT fixtureTree 0).getD 3 0 ∧
      nodeAt (Tree.new fixtureTree) (lldAt (Tree.new fixtureTree) 3) =
        followChain (nodeAt (Tree.new fixtureTree) 3) ∧
      lldAt (Tree.new fixtureTree) 3 ≤ 3 ∧
      (lldAt (Tree.new fixtureTree) 3 = 3 ↔
        (nodeAt (Tree.new fixtureTree) 3).children = [])) :=
  ⟨by decide, lld_equals_chain_leaf fixtureTree 3 (by decide)⟩

theorem key_roots_characterization_witness :
    2 < (Tree.new fixtureTree).post_order.length ∧
    (2 ∈ (Tree.new fixtureTree).key_roots ↔
      (2 = (Tree.new fixtureTree).post_order.length - 1 ∨
        (precededFlagsT fixtureTree false).getD 2 false = true)) :=
  ⟨by decide, (key_roots_characterization fixtureTree).2.2.2.2 2 (by decide)⟩

theorem forest_branch_reads_witness :
    4 ∈ (Tree.new exampleT1).key_roots ∧ 3 ∈ (Tree.new exampleT2).key_roots ∧
    forestRead (Tree.new exampleT1) (Tree.new exampleT2) 4 3 1 2 ∧
    (∃ x' ∈ (Tree.new exampleT1).key_roots, ∃ y' ∈ (Tree.new exampleT2).key_roots,
      (x' < 4 ∨ (x' = 4 ∧ y' < 3)) ∧
      writesCell (Tree.new exampleT1) (Tree.new exampleT2) x' y' 1 2) :=
  ⟨by decide, by decide, by decide,
    (forest_branch_reads_already_written exampleT1 exampleT2).2.2 4 (by decide) 3
      (by decide) 1 2 (by decide)⟩

/-! ## Pure specification layer: the recursive Zhang–Shasha value `TDS` and the
simulation of the imperative double loop against it -/


section FDSEq

variable (t1 t2 : Tree) (hh1 : ∀ k, lldAt t1 k ≤ k) (hh2 : ∀ k, lldAt t2 k ≤ k)
  (ic dc rc : Nat)

theorem FDS_zero_zero (a b : Nat) : FDS t1 t2 hh1 hh2 ic dc rc a b 0 0 = 0 := by
  simp [FDS]

theorem FDS_succ_zero (a b i : Nat) (h : i + 1 ≤ a - lldAt t1 a + 1) :
    FDS t1 t2 hh1 hh2 ic dc rc a b (i + 1) 0 =
      (FDS t1 t2 hh1 hh2 ic dc rc a b i 0 + dc) % U := by
  rw [FDS]
  rw [if_pos h]

theorem FDS_zero_succ (a b j : Nat) (h : j + 1 ≤ b - lldAt t2 b + 1) :
    FDS t1 t2 hh1 hh2 ic dc rc a b 0 (j + 1) =
      (FDS t1 t2 hh1 hh2 ic dc rc a b 0 j + ic) % U := by
  rw [FDS]
  rw [if_pos h]

theorem FDS_succ_succ (a b i j : Nat)
    (hgi : i + 1 ≤ a - lldAt t1 a + 1) (hgj : j + 1 ≤ b - lldAt t2 b + 1) :
    FDS t1 t2 hh1 hh2 ic dc rc a b (i + 1) (j + 1) =
      if lldAt t1 (i + lldAt t1 a) = lldAt t1 a ∧
          lldAt t2 (j + lldAt t2 b) = lldAt t2 b then
        min (min ((FDS t1 t2 hh1 hh2 ic dc rc a b i (j+1) + dc) % U)
                 ((FDS t1 t2 hh1 hh2 ic dc rc a b (i+1) j + ic) % U))
          ((FDS t1 t2 hh1 hh2 ic dc rc a b i j +
            label_cmp (nodeAt t1 (i + lldAt t1 a)) (nodeAt t2 (j + lldAt t2 b)) rc) % U)
      else
        min (min ((FDS t1 t2 hh1 hh2 ic dc rc a b i (j+1) + dc) % U)
                 ((FDS t1 t2 hh1 hh2 ic dc rc a b (i+1) j + ic) % U))
          ((FDS t1 t2 hh1 hh2 ic dc rc a b
              (lldAt t1 (i + lldAt t1 a) - lldAt t1 a)
              (lldAt t2 (j + lldAt t2 b) - lldAt t2 b) +
            TDS t1 t2 hh1 hh2 ic dc rc (i + lldAt t1 a) (j + lldAt t2 b)) % U) := by
  rw [FDS]
  rw [dif_pos ⟨hgi, hgj⟩]
  rfl

end FDSEq


section FDSFacts

variable (t1 t2 : Tree) (hh1 : ∀ k, lldAt t1 k ≤ k) (hh2 : ∀ k, lldAt t2 k ≤ k)
  (ic dc rc : Nat)

theorem FDS_row0 (a b : Nat) : ∀ j, j ≤ b - lldAt t2 b + 1 →
    FDS t1 t2 hh1 hh2 ic dc rc a b 0 j = (j * ic) % U := by
  intro j
  induction j with
  | zero =>
    intro _
    rw [FDS_zero_zero]
    simp
  | succ j ih =>
    intro hj
    rw [FDS_zero_succ t1 t2 hh1 hh2 ic dc rc a b j hj, ih (by omega)]
    simp [Nat.mod_add_mod, Nat.succ_mul]

theorem FDS_col0 (a b : Nat) : ∀ i, i ≤ a - lldAt t1 a + 1 →
    FDS t1 t2 hh1 hh2 ic dc rc a b i 0 = (i * dc) % U := by
  intro i
  induction i with
  | zero =>
    intro _
    rw [FDS_zero_zero]
    simp
  | succ i ih =>
    intro hi
    rw [FDS_succ_zero t1 t2 hh1 hh2 ic dc rc a b i hi, ih (by omega)]
    simp [Nat.mod_add_mod, Nat.succ_mul]

theorem FDS_window (a b x y : Nat) (hax : a ≤ x) (hby : b ≤ y)
    (hla : lldAt t1 a = lldAt t1 x) (hlb : lldAt t2 b = lldAt t2 y) :
    ∀ s i j, i + j ≤ s → i ≤ a - lldAt t1 a + 1 → j ≤ b - lldAt t2 b + 1 →
      FDS t1 t2 hh1 hh2 ic dc rc x y i j = FDS t1 t2 hh1 hh2 ic dc rc a b i j := by
  intro s
  induction s with
  | zero =>
    intro i j hs _ _
    have hi : i = 0 := by omega
    have hj : j = 0 := by omega
    subst hi; subst hj
    rw [FDS_zero_zero, FDS_zero_zero]
  | succ s ih =>
    intro i j hs hi hj
    have hix : i ≤ x - lldAt t1 x + 1 := by
      rw [hla] at hi
      omega
    have hjy : j ≤ y - lldAt t2 y + 1 := by
      rw [hlb] at hj
      omega
    match i, j with
    | 0, 0 => rw [FDS_zero_zero, FDS_zero_zero]
    | i+1, 0 =>
      rw [FDS_succ_zero t1 t2 hh1 hh2 ic dc rc x y i hix,
        FDS_succ_zero t1 t2 hh1 hh2 ic dc rc a b i hi]
      rw [ih i 0 (by omega) (by omega) (by omega)]
    | 0, j+1 =>
      rw [FDS_zero_succ t1 t2 hh1 hh2 ic dc rc x y j hjy,
        FDS_zero_succ t1 t2 hh1 hh2 ic dc rc a b j hj]
      rw [ih 0 j (by omega) (by omega) (by omega)]
    | i+1, j+1 =>
      rw [FDS_succ_succ t1 t2 hh1 hh2 ic dc rc x y i j hix hjy,
        FDS_succ_succ t1 t2 hh1 hh2 ic dc rc a b i j hi hj]
      rw [← hla, ← hlb]
      have e1 := ih i (j+1) (by omega) (by omega) (by omega)
      have e2 := ih (i+1) j (by omega) (by omega) (by omega)
      have e3 := ih i j (by omega) (by omega) (by omega)
      have hdi : lldAt t1 (i + lldAt t1 a) - lldAt t1 a ≤ i := by
        have := hh1 (i + lldAt t1 a)
        omega
      have hdj : lldAt t2 (j + lldAt t2 b) - lldAt t2 b ≤ j := by
        have := hh2 (j + lldAt t2 b)
        omega
      have e4 := ih (lldAt t1 (i + lldAt t1 a) - lldAt t1 a)
        (lldAt t2 (j + lldAt t2 b) - lldAt t2 b) (by omega) (by omega) (by omega)
      rw [e1, e2, e3, e4]

end FDSFacts


section Rect

variable (t1 t2 : Tree) (hh1 : ∀ k, lldAt t1 k ≤ k) (hh2 : ∀ k, lldAt t2 k ≤ k)
  (ic dc rc : Nat)

theorem fdTable_eq_FDS (x y : Nat) (td : List (List Nat))
    (hres : ∀ a b, forestRead t1 t2 x y a b →
      getE td a b = TDS t1 t2 hh1 hh2 ic dc rc a b) :
    ∀ s i j, i + j ≤ s → i ≤ x - lldAt t1 x + 1 → j ≤ y - lldAt t2 y + 1 →
      getE (fdTable t1 t2 ic dc rc x y td) i j =
        FDS t1 t2 hh1 hh2 ic dc rc x y i j := by
  intro s
  induction s with
  | zero =>
    intro i j hs _ _
    have hi : i = 0 := by omega
    have hj : j = 0 := by omega
    subst hi; subst hj
    rw [FDS_zero_zero]
    have h0 := fdTable_row0 t1 t2 ic dc rc x y td 0 (by omega)
    simpa using h0
  | succ s ih =>
    intro i j hs hi hj
    match i, j with
    | 0, j =>
      rw [fdTable_row0 t1 t2 ic dc rc x y td j hj,
        FDS_row0 t1 t2 hh1 hh2 ic dc rc x y j hj]
    | i+1, 0 =>
      rw [fdTable_col0 t1 t2 ic dc rc x y td (i+1) hi,
        FDS_col0 t1 t2 hh1 hh2 ic dc rc x y (i+1) hi]
    | i+1, j+1 =>
      rw [fdTable_entry t1 t2 ic dc rc x y td (i+1) (j+1) (by omega) hi (by omega) hj
        (hh1 _)]
      rw [FDS_succ_succ t1 t2 hh1 hh2 ic dc rc x y i j hi hj]
      have hn1 : i + 1 + lldAt t1 x - 1 = i + lldAt t1 x := by omega
      have hn2 : j + 1 + lldAt t2 y - 1 = j + lldAt t2 y := by omega
      rw [hn1, hn2]
      have hs1 : i + 1 - 1 = i := by omega
      have hs2 : j + 1 - 1 = j := by omega
      rw [hs1, hs2]
      have e1 := ih i (j+1) (by omega) (by omega) hj
      have e2 := ih (i+1) j (by omega) hi (by omega)
      have e3 := ih i j (by omega) (by omega) (by omega)
      split
      case isTrue hc =>
        rw [e1, e2, e3]
      case isFalse hc =>
        have hdi : lldAt t1 (i + lldAt t1 x) - lldAt t1 x ≤ i := by
          have := hh1 (i + lldAt t1 x)
          omega
        have hdj : lldAt t2 (j + lldAt t2 y) - lldAt t2 y ≤ j := by
          have := hh2 (j + lldAt t2 y)
          omega
        have e4 := ih (lldAt t1 (i + lldAt t1 x) - lldAt t1 x)
          (lldAt t2 (j + lldAt t2 y) - lldAt t2 y) (by omega) (by omega) (by omega)
        have hread : forestRead t1 t2 x y (i + lldAt t1 x) (j + lldAt t2 y) := by
          refine ⟨by omega, ?_, by omega, ?_, hc⟩
          · have := hh1 x
            omega
          · have := hh2 y
            omega
        have e5 := hres (i + lldAt t1 x) (j + lldAt t2 y) hread
        rw [e1, e2, e4, e5]

end Rect


/-! prefix-tracking fold induction -/

theorem foldl_invariant_pre {α β : Type} (P : α → List β → Prop) (f : α → β → α) :
    ∀ (l pre : List β) (acc : α), P acc pre →
      (∀ a p x s, pre ++ l = p ++ x :: s → P a p → P (f a x) (p ++ [x])) →
      P (l.foldl f acc) (pre ++ l) := by
  intro l
  induction l with
  | nil =>
    intro pre acc h0 _
    rw [List.append_nil]
    exact h0
  | cons x l ih =>
    intro pre acc h0 hstep
    have hre : pre ++ x :: l = (pre ++ [x]) ++ l := by
      rw [List.append_assoc]
      rfl
    rw [hre]
    refine ih (pre ++ [x]) (f acc x) (hstep acc pre x l rfl h0) ?_
    intro a p x' s' hdec hp
    refine hstep a p x' s' ?_ hp
    rw [← hdec, List.append_assoc]
    rfl

theorem sorted_mem_lt_prefix {p s : List Nat} {x : Nat}
    (hs : List.Sorted (· ≤ ·) (p ++ x :: s)) :
    ∀ x' ∈ p ++ x :: s, x' < x → x' ∈ p := by
  intro x' hmem hlt
  rw [List.mem_append] at hmem
  rcases hmem with h | h
  · exact h
  · exfalso
    rw [List.mem_cons] at h
    rcases h with h | h
    · omega
    · have hsub : List.Sorted (· ≤ ·) (x :: s) :=
        List.Pairwise.sublist (List.sublist_append_right p (x :: s)) hs
      have := List.rel_of_sorted_cons hsub x' h
      omega

theorem writesCell_iff (t1 t2 : Tree) (x y a b : Nat) :
    writesCell t1 t2 x y a b ↔
      (lldAt t1 x ≤ a ∧ a ≤ x ∧ lldAt t1 a = lldAt t1 x ∧
        lldAt t2 y ≤ b ∧ b ≤ y ∧ lldAt t2 b = lldAt t2 y) := by
  unfold writesCell
  tauto


/-! master simulation: the td matrix computed by the key-root double loop
    agrees with the pure recursive tree distance on every cell -/

theorem td_fold_eq_TDS (r1 r2 : TreeNode) (ic dc rc : Nat) :
    ∀ a b, a < (Tree.new r1).post_order.length →
      b < (Tree.new r2).post_order.length →
      getE ((Tree.new r1).key_roots.foldl (fun td x =>
          (Tree.new r2).key_roots.foldl (fun td y =>
            tdStep (Tree.new r1) (Tree.new r2) ic dc rc td x y) td)
        (zeros (Tree.new r1).post_order.length (Tree.new r2).post_order.length)) a b =
      TDS (Tree.new r1) (Tree.new r2) (lldAt_new_le r1) (lldAt_new_le r2) ic dc rc a b := by
  set t1 := Tree.new r1 with ht1
  set t2 := Tree.new r2 with ht2
  set n1 := t1.post_order.length with hn1
  set n2 := t2.post_order.length with hn2
  have hh1 : ∀ k, lldAt t1 k ≤ k := lldAt_new_le r1
  have hh2 : ∀ k, lldAt t2 k ≤ k := lldAt_new_le r2
  have hkr1lt : ∀ k ∈ t1.key_roots, k < n1 := keyroots_new_mem_lt r1
  have hkr2lt : ∀ k ∈ t2.key_roots, k < n2 := keyroots_new_mem_lt r2
  have hsort1 : List.Sorted (· ≤ ·) t1.key_roots := List.sorted_insertionSort _ _
  have hsort2 : List.Sorted (· ≤ ·) t2.key_roots := List.sorted_insertionSort _ _
  have hmain := foldl_invariant_pre
    (fun td pre1 => wfMat td n1 n2 ∧ ∀ a b, a < n1 → b < n2 →
      (∃ x' ∈ pre1, ∃ y' ∈ t2.key_roots, writesCell t1 t2 x' y' a b) →
      getE td a b = TDS t1 t2 hh1 hh2 ic dc rc a b)
    (fun td x => t2.key_roots.foldl (fun td y => tdStep t1 t2 ic dc rc td x y) td)
    t1.key_roots [] (zeros n1 n2)
    ⟨wfMat_zeros n1 n2, by
      intro a b _ _ hcov
      obtain ⟨x', hx', _⟩ := hcov
      simp at hx'⟩
    ?hstep
  case hstep =>
    intro td p x s hdec hP
    have hdec' : t1.key_roots = p ++ x :: s := by simpa using hdec
    have hxmem : x ∈ t1.key_roots := by rw [hdec']; simp
    have hxlt : x < n1 := hkr1lt x hxmem
    have hpre1 : ∀ x' ∈ t1.key_roots, x' < x → x' ∈ p := by
      rw [hdec']
      exact fun x' h1 h2 => sorted_mem_lt_prefix (hdec' ▸ hsort1) x' h1 h2
    have hinner := foldl_invariant_pre
      (fun td pre2 => wfMat td n1 n2 ∧ ∀ a b, a < n1 → b < n2 →
        ((∃ x' ∈ p, ∃ y' ∈ t2.key_roots, writesCell t1 t2 x' y' a b) ∨
          (∃ y' ∈ pre2, writesCell t1 t2 x y' a b)) →
        getE td a b = TDS t1 t2 hh1 hh2 ic dc rc a b)
      (fun td y => tdStep t1 t2 ic dc rc td x y)
      t2.key_roots [] td
      ⟨hP.1, by
        intro a b ha hb hcov
        rcases hcov with hcov | hcov
        · exact hP.2 a b ha hb hcov
        · obtain ⟨y', hy', _⟩ := hcov
          simp at hy'⟩
      ?innerstep
    case innerstep =>
      intro td' p2 y s2 hdec2 hP2
      have hdec2' : t2.key_roots = p2 ++ y :: s2 := by simpa using hdec2
      have hymem : y ∈ t2.key_roots := by rw [hdec2']; simp
      have hylt : y < n2 := hkr2lt y hymem
      have hpre2 : ∀ y' ∈ t2.key_roots, y' < y → y' ∈ p2 := by
        rw [hdec2']
        exact fun y' h1 h2 => sorted_mem_lt_prefix (hdec2' ▸ hsort2) y' h1 h2
      refine ⟨wfMat_tdStep t1 t2 ic dc rc td' x y n1 n2 hP2.1, ?_⟩
      intro a b ha hb hcov
      rw [getE_tdStep t1 t2 ic dc rc td' x y n1 n2 hP2.1 hxlt (hh1 x) hylt (hh2 y) a b]
      by_cases hw : writesCell t1 t2 x y a b
      · rw [if_pos ((writesCell_iff t1 t2 x y a b).mp hw)]
        obtain ⟨hw1, hw2, hw3, hw4, hw5, hw6⟩ := hw
        have hres : ∀ a' b', forestRead t1 t2 x y a' b' →
            getE td' a' b' = TDS t1 t2 hh1 hh2 ic dc rc a' b' := by
          intro a' b' hread
          obtain ⟨x'', hx''m, y'', hy''m, hlex, hw''⟩ :=
            read_resolved_core r1 r2 x y a' b' hxmem hymem hread
          have ha' : a' < n1 := by
            obtain ⟨_, h2, _, _, _⟩ := hread
            omega
          have hb' : b' < n2 := by
            obtain ⟨_, _, _, h4, _⟩ := hread
            omega
          apply hP2.2 a' b' ha' hb'
          rcases hlex with hlt | ⟨heq, hylt'⟩
          · exact Or.inl ⟨x'', hpre1 x'' hx''m hlt, y'', hy''m, hw''⟩
          · subst heq
            exact Or.inr ⟨y'', hpre2 y'' hy''m hylt', hw''⟩
        rw [fdTable_eq_FDS t1 t2 hh1 hh2 ic dc rc x y td' hres
          ((a - lldAt t1 x + 1) + (b - lldAt t2 y + 1)) (a - lldAt t1 x + 1)
          (b - lldAt t2 y + 1) (Nat.le_refl _) (by omega) (by omega)]
        unfold TDS
        rw [← hw5, ← hw6]
        exact FDS_window t1 t2 hh1 hh2 ic dc rc a b x y hw2 hw4 hw5 hw6 _ _ _
          (Nat.le_refl _) (Nat.le_refl _) (Nat.le_refl _)
      · rw [if_neg (fun hcond => hw ((writesCell_iff t1 t2 x y a b).mpr hcond))]
        apply hP2.2 a b ha hb
        rcases hcov with hcov | hcov
        · exact Or.inl hcov
        · obtain ⟨y', hy'm, hy'w⟩ := hcov
          rw [List.mem_append] at hy'm
          rcases hy'm with h | h
          · exact Or.inr ⟨y', h, hy'w⟩
          · exfalso
            rw [List.mem_singleton] at h
            subst h
            exact hw hy'w
    -- after the inner fold: outer invariant for p ++ [x]
    refine ⟨hinner.1, ?_⟩
    intro a b ha hb hcov
    apply hinner.2 a b ha hb
    obtain ⟨x', hx'm, y', hy'm, hw'⟩ := hcov
    rw [List.mem_append] at hx'm
    rcases hx'm with h | h
    · exact Or.inl ⟨x', h, y', hy'm, hw'⟩
    · rw [List.mem_singleton] at h
      subst h
      exact Or.inr ⟨y', by simpa using hy'm, hw'⟩
  -- conclude from full coverage
  intro a b ha hb
  have hend := hmain.2 a b ha hb
  apply hend
  obtain ⟨x', hx'm, hx'ge, hx'lld⟩ := covering_keyroot_new r1 a ha
  obtain ⟨y', hy'm, hy'ge, hy'lld⟩ := covering_keyroot_new r2 b hb
  refine ⟨x', by simpa using hx'm, y', hy'm, ?_⟩
  have hla := lldAt_new_le r1 a
  have hlb := lldAt_new_le r2 b
  exact ⟨by rw [hx'lld]; omega, hx'ge, by rw [hy'lld]; omega, hy'ge,
    hx'lld.symm, hy'lld.symm⟩


/-! out-of-rectangle equations -/

section FDSOut

variable (t1 t2 : Tree) (hh1 : ∀ k, lldAt t1 k ≤ k) (hh2 : ∀ k, lldAt t2 k ≤ k)
  (ic dc rc : Nat)

theorem FDS_succ_zero_out (a b i : Nat) (h : ¬(i + 1 ≤ a - lldAt t1 a + 1)) :
    FDS t1 t2 hh1 hh2 ic dc rc a b (i + 1) 0 = 0 := by
  rw [FDS]
  rw [if_neg h]

theorem FDS_zero_succ_out (a b j : Nat) (h : ¬(j + 1 ≤ b - lldAt t2 b + 1)) :
    FDS t1 t2 hh1 hh2 ic dc rc a b 0 (j + 1) = 0 := by
  rw [FDS]
  rw [if_neg h]

theorem FDS_succ_succ_out (a b i j : Nat)
    (h : ¬(i + 1 ≤ a - lldAt t1 a + 1 ∧ j + 1 ≤ b - lldAt t2 b + 1)) :
    FDS t1 t2 hh1 hh2 ic dc rc a b (i + 1) (j + 1) = 0 := by
  rw [FDS]
  rw [dif_neg h]

end FDSOut

theorem label_cmp_comm (u v : TreeNode) (rc : Nat) :
    label_cmp u v rc = label_cmp v u rc := by
  unfold label_cmp
  by_cases h : u.label = v.label
  · rw [if_pos h, if_pos h.symm]
  · rw [if_neg h, if_neg (fun hh => h hh.symm)]

/-! symmetry of the pure spec when insertion and deletion costs agree -/

theorem FDS_comm (t1 t2 : Tree) (hh1 : ∀ k, lldAt t1 k ≤ k)
    (hh2 : ∀ k, lldAt t2 k ≤ k) (c rc : Nat) :
    ∀ (ab : Nat) (a b : Nat), a + b = ab → ∀ i j,
      FDS t1 t2 hh1 hh2 c c rc a b i j = FDS t2 t1 hh2 hh1 c c rc b a j i := by
  intro ab
  induction ab using Nat.strong_induction_on with
  | _ ab ihs =>
    intro a b hab
    have inner : ∀ u i j, i + j ≤ u →
        FDS t1 t2 hh1 hh2 c c rc a b i j = FDS t2 t1 hh2 hh1 c c rc b a j i := by
      intro u
      induction u with
      | zero =>
        intro i j hij
        have hi : i = 0 := by omega
        have hj : j = 0 := by omega
        subst hi; subst hj
        rw [FDS_zero_zero, FDS_zero_zero]
      | succ u ihu =>
        intro i j hij
        match i, j with
        | 0, 0 => rw [FDS_zero_zero, FDS_zero_zero]
        | i+1, 0 =>
          by_cases hg : i + 1 ≤ a - lldAt t1 a + 1
          · rw [FDS_succ_zero t1 t2 hh1 hh2 c c rc a b i hg,
              FDS_zero_succ t2 t1 hh2 hh1 c c rc b a i hg,
              ihu i 0 (by omega)]
          · rw [FDS_succ_zero_out t1 t2 hh1 hh2 c c rc a b i hg,
              FDS_zero_succ_out t2 t1 hh2 hh1 c c rc b a i hg]
        | 0, j+1 =>
          by_cases hg : j + 1 ≤ b - lldAt t2 b + 1
          · rw [FDS_zero_succ t1 t2 hh1 hh2 c c rc a b j hg,
              FDS_succ_zero t2 t1 hh2 hh1 c c rc b a j hg,
              ihu 0 j (by omega)]
          · rw [FDS_zero_succ_out t1 t2 hh1 hh2 c c rc a b j hg,
              FDS_succ_zero_out t2 t1 hh2 hh1 c c rc b a j hg]
        | i+1, j+1 =>
          by_cases hg : (i + 1 ≤ a - lldAt t1 a + 1) ∧ (j + 1 ≤ b - lldAt t2 b + 1)
          · rw [FDS_succ_succ t1 t2 hh1 hh2 c c rc a b i j hg.1 hg.2,
              FDS_succ_succ t2 t1 hh2 hh1 c c rc b a j i hg.2 hg.1]
            by_cases hc : lldAt t1 (i + lldAt t1 a) = lldAt t1 a ∧
                lldAt t2 (j + lldAt t2 b) = lldAt t2 b
            · rw [if_pos hc, if_pos ⟨hc.2, hc.1⟩]
              rw [ihu i (j+1) (by omega), ihu (i+1) j (by omega), ihu i j (by omega)]
              rw [label_cmp_comm]
              congr 1
              exact Nat.min_comm _ _
            · rw [if_neg hc, if_neg (fun hh => hc ⟨hh.2, hh.1⟩)]
              have hdi : lldAt t1 (i + lldAt t1 a) - lldAt t1 a ≤ i := by
                have := hh1 (i + lldAt t1 a)
                omega
              have hdj : lldAt t2 (j + lldAt t2 b) - lldAt t2 b ≤ j := by
                have := hh2 (j + lldAt t2 b)
                omega
              rw [ihu i (j+1) (by omega), ihu (i+1) j (by omega),
                ihu (lldAt t1 (i + lldAt t1 a) - lldAt t1 a)
                  (lldAt t2 (j + lldAt t2 b) - lldAt t2 b) (by omega)]
              have hcross : (i + lldAt t1 a) + (j + lldAt t2 b) < a + b := by
                have h1 := hh1 a
                have h2 := hh2 b
                rcases Decidable.not_and_iff_or_not.mp hc with h | h
                · have hne : i + lldAt t1 a ≠ a := fun he => h (by rw [he])
                  omega
                · have hne : j + lldAt t2 b ≠ b := fun he => h (by rw [he])
                  omega
              have hTDS : TDS t1 t2 hh1 hh2 c c rc (i + lldAt t1 a) (j + lldAt t2 b) =
                  TDS t2 t1 hh2 hh1 c c rc (j + lldAt t2 b) (i + lldAt t1 a) := by
                unfold TDS
                exact ihs ((i + lldAt t1 a) + (j + lldAt t2 b)) (by omega) _ _ rfl _ _
              rw [hTDS]
              congr 1
              exact Nat.min_comm _ _
          · rw [FDS_succ_succ_out t1 t2 hh1 hh2 c c rc a b i j hg,
              FDS_succ_succ_out t2 t1 hh2 hh1 c c rc b a j i (fun hh => hg ⟨hh.2, hh.1⟩)]
    exact fun i j => inner (i + j) i j (Nat.le_refl _)


theorem wted_eq_TDS (r1 r2 : TreeNode) (ic dc rc : Nat) :
    (Tree.new r1).weighted_tree_edit_distance (Tree.new r2) ic dc rc =
      TDS (Tree.new r1) (Tree.new r2) (lldAt_new_le r1) (lldAt_new_le r2) ic dc rc
        ((Tree.new r1).post_order.length - 1) ((Tree.new r2).post_order.length - 1) := by
  rw [Tree.weighted_tree_edit_distance]
  have h1 : (Tree.new r1).post_order.length - 1 < (Tree.new r1).post_order.length := by
    have := new_post_order_len r1
    have := TreeNode.size_pos r1
    omega
  have h2 : (Tree.new r2).post_order.length - 1 < (Tree.new r2).post_order.length := by
    have := new_post_order_len r2
    have := TreeNode.size_pos r2
    omega
  exact td_fold_eq_TDS r1 r2 ic dc rc _ _ h1 h2

/-! ### Claim C3: symmetry in the tree arguments under equal insertion and
deletion costs -/

/-- C3: for all trees and all costs with `insertion_cost = deletion_cost = c`
and relabeling cost `rc`, `weighted_tree_edit_distance` is symmetric in its
two tree arguments. -/
theorem weighted_distance_cost_symmetric (r1 r2 : TreeNode) (c rc : Nat) :
    (Tree.new r1).weighted_tree_edit_distance (Tree.new r2) c c rc =
      (Tree.new r2).weighted_tree_edit_distance (Tree.new r1) c c rc := by
  rw [wted_eq_TDS r1 r2 c c rc, wted_eq_TDS r2 r1 c c rc]
  unfold TDS
  exact FDS_comm (Tree.new r1) (Tree.new r2) (lldAt_new_le r1) (lldAt_new_le r2) c rc
    _ _ _ rfl _ _

end ZhangShasha
